import Mathlib

/-!
# Verification of the JPLT resilient lookup-and-caching core

Shallow embedding of the caching / resilience engine of the repository:

* `EnhancedLRUCache` and `MultiLevelCache`   (backend/enhanced-cache.js)
* circuit breaker, request deduplication and `BatchProcessor`
  (backend/request-optimizer.js)
* the variant lookup pipeline `generateComprehensiveVariants` /
  `getDefinitionAdvanced` (backend/enhanced_server.js)

JavaScript `Map` objects are modelled as association lists with the insertion
order semantics of `Map` (updating an existing key keeps its position, a new
key is appended).  `Date.now()` is modelled by an explicit `now : Nat`
parameter threaded through the operations.  JS `number` statistics that are
exact integer counters are modelled as `Nat`; the derived `hitRate`
statistic, which performs division, is modelled over `ℚ` (JS float64
rounding plays no role in any of the statements below, all concrete
counterexamples are float-exact).
-/

set_option autoImplicit false

universe u

/-! ## JavaScript `Map` model -/

/-- A JavaScript `Map` with string keys: an association list in insertion
order.  `Map.prototype.set` on a present key updates it in place, on an
absent key appends at the end; `Map.prototype.delete` removes the key. -/
abbrev JMap (α : Type u) := List (String × α)

def jmGet {α : Type u} (m : JMap α) (k : String) : Option α :=
  (m.find? (fun p => p.1 == k)).map (·.2)

def jmHas {α : Type u} (m : JMap α) (k : String) : Bool :=
  (jmGet m k).isSome

/-- `Map.prototype.set`: update in place when present, append when absent. -/
def jmSet {α : Type u} (m : JMap α) (k : String) (v : α) : JMap α :=
  if jmHas m k then m.map (fun p => if p.1 == k then (k, v) else p)
  else m ++ [(k, v)]

/-- `Map.prototype.delete`. -/
def jmDel {α : Type u} (m : JMap α) (k : String) : JMap α :=
  m.filter (fun p => !(p.1 == k))

def jmKeys {α : Type u} (m : JMap α) : List String :=
  m.map (·.1)

/-- A JavaScript `Set` of strings in insertion order: `Set.prototype.add`
ignores an element that is already present. -/
def jsSetAdd (s : List String) (x : String) : List String :=
  if x ∈ s then s else s ++ [x]

def jsSetAddAll (s : List String) (xs : List String) : List String :=
  xs.foldl jsSetAdd s

/-! ### JS string primitives

JS strings are sequences of UTF-16 code units; every string handled by this
code base lives in the Basic Multilingual Plane, where one code unit is one
code point, so `.length`, `.slice`, `.startsWith`, `.endsWith` operate on
what Lean sees as `Char` lists.  They are defined over `String.toList`
(rather than the core byte-position functions) so that they evaluate by
kernel reduction. -/

def sLength (s : String) : Nat := s.toList.length

def sIsEmpty (s : String) : Bool := s.toList.isEmpty

def sEndsWith (s suf : String) : Bool := suf.toList.isSuffixOf s.toList

def sStartsWith (s pre : String) : Bool := pre.toList.isPrefixOf s.toList

/-- `s.slice(n)`. -/
def sDrop (s : String) (n : Nat) : String := String.mk (s.toList.drop n)

/-- `s.slice(0, -n)`. -/
def sDropRight (s : String) (n : Nat) : String :=
  String.mk (s.toList.take (s.toList.length - n))

def sCharMap (f : Char → Char) (s : String) : String := String.mk (s.toList.map f)

def sAllChars (s : String) (p : Char → Bool) : Bool := s.toList.all p

/-! ## EnhancedLRUCache  (backend/enhanced-cache.js)

The per-entry access-time sampling (`stats.accessTimes`,
`averageAccessTime`, via `performance.now()`) measures wall-clock durations
of individual map reads; it is not statable in a timeless embedding and no
claim mentions it, so those two statistics fields are omitted.  The
`estimateMemoryUsage` report (JSON serialization byte counts) is likewise
omitted.  Everything else is modelled operation by operation. -/

structure CacheEntry (α : Type u) where
  value : α
  expiry : Nat
  created : Nat
  accessed : Nat
  deriving Repr, DecidableEq

structure CacheStats where
  hits : Nat
  misses : Nat
  evictions : Nat
  size : Nat
  hitRate : ℚ
  deriving Repr, DecidableEq

structure LRUCache (α : Type u) where
  maxSize : Nat
  ttl : Nat
  cache : JMap (CacheEntry α)
  accessOrder : JMap Nat
  stats : CacheStats
  deriving Repr

/-- `new EnhancedLRUCache(maxSize, ttl)`. -/
def LRUCache.init {α : Type u} (maxSize ttl : Nat) : LRUCache α :=
  { maxSize := maxSize, ttl := ttl, cache := [], accessOrder := [],
    stats := { hits := 0, misses := 0, evictions := 0, size := 0, hitRate := 0 } }

/-- `isValid(item)`: `Date.now() < item.expiry`. -/
def LRUCache.entryValid (now : Nat) {α : Type u} (e : CacheEntry α) : Bool :=
  now < e.expiry

/-- `updateHitRate()`: `hitRate = total > 0 ? (hits / total) * 100 : 0`. -/
def updateHitRate (s : CacheStats) : CacheStats :=
  let total := s.hits + s.misses
  { s with hitRate := if 0 < total then ((s.hits : ℚ) / (total : ℚ)) * 100 else 0 }

/-- `get(key)`.  Returns the value (or `none`, JS `null`) together with the
updated store.  A hit refreshes the access-order timestamp; a present but
expired entry is deleted and counted as a miss. -/
def LRUCache.get {α : Type u} (c : LRUCache α) (now : Nat) (key : String) :
    Option α × LRUCache α :=
  match jmGet c.cache key with
  | some item =>
    if LRUCache.entryValid now item then
      (some item.value,
        { c with accessOrder := jmSet c.accessOrder key now,
                 stats := updateHitRate { c.stats with hits := c.stats.hits + 1 } })
    else
      (none,
        { c with cache := jmDel c.cache key,
                 accessOrder := jmDel c.accessOrder key,
                 stats := updateHitRate { c.stats with misses := c.stats.misses + 1 } })
  | none =>
    (none, { c with stats := updateHitRate { c.stats with misses := c.stats.misses + 1 } })

/-- `evictLRU()`: scan `accessOrder` for the strictly smallest timestamp
(the first such key in iteration order wins ties).  The fold mirrors the
source loop with `oldestTime` starting at `Infinity`. -/
def findOldest (ao : JMap Nat) : Option (String × Nat) :=
  ao.foldl (fun acc p =>
    match acc with
    | none => some p
    | some q => if p.2 < q.2 then some p else some q) none

def LRUCache.evictLRU {α : Type u} (c : LRUCache α) : LRUCache α :=
  if c.accessOrder.isEmpty then c
  else
    match findOldest c.accessOrder with
    | none => c
    | some (oldestKey, _) =>
      -- JS: `if (oldestKey)` — the empty string is falsy, so a falsy key
      -- silently skips the eviction.
      if oldestKey = "" then c
      else
        let cache' := jmDel c.cache oldestKey
        { c with cache := cache',
                 accessOrder := jmDel c.accessOrder oldestKey,
                 stats := { c.stats with evictions := c.stats.evictions + 1,
                                         size := cache'.length } }

/-- `customTTL || this.ttl`: JS `||` also replaces `0` (falsy). -/
def jsOrTTL (customTTL : Option Nat) (dflt : Nat) : Nat :=
  match customTTL with
  | some t => if t = 0 then dflt else t
  | none => dflt

/-- `set(key, value, customTTL)`. -/
def LRUCache.set {α : Type u} (c : LRUCache α) (now : Nat) (key : String)
    (value : α) (customTTL : Option Nat) : LRUCache α :=
  let ttl := jsOrTTL customTTL c.ttl
  let expiry := now + ttl
  let c := if c.maxSize ≤ c.cache.length ∧ ¬ (jmHas c.cache key = true)
           then c.evictLRU else c
  let cache' := jmSet c.cache key ⟨value, expiry, now, now⟩
  { c with cache := cache',
           accessOrder := jmSet c.accessOrder key now,
           stats := { c.stats with size := cache'.length } }

/-- `has(key)` (expiry-aware). -/
def LRUCache.hasKey {α : Type u} (c : LRUCache α) (now : Nat) (key : String) : Bool :=
  match jmGet c.cache key with
  | some item => LRUCache.entryValid now item
  | none => false

/-- `delete(key)`. -/
def LRUCache.del {α : Type u} (c : LRUCache α) (key : String) : Bool × LRUCache α :=
  let deleted := jmHas c.cache key
  let cache' := jmDel c.cache key
  (deleted,
    { c with cache := cache',
             accessOrder := jmDel c.accessOrder key,
             stats := { c.stats with size := cache'.length } })

/-- `clear()`. -/
def LRUCache.clearAllEntries {α : Type u} (c : LRUCache α) : LRUCache α :=
  { c with cache := [], accessOrder := [], stats := { c.stats with size := 0 } }

/-- `cleanup()`: delete every entry with `now >= item.expiry` from both maps
(modelled as a fold of the per-key deletions the source loop performs),
then refresh `stats.size`; returns the number of removed entries. -/
def LRUCache.cleanup {α : Type u} (c : LRUCache α) (now : Nat) : LRUCache α × Nat :=
  let expired := (c.cache.filter (fun p => p.2.expiry ≤ now)).map (·.1)
  let c := expired.foldl (fun acc k =>
    { acc with cache := jmDel acc.cache k, accessOrder := jmDel acc.accessOrder k }) c
  ({ c with stats := { c.stats with size := c.cache.length } }, expired.length)

/-- `preload(entries)`: bulk insert skipping keys already (validly) present. -/
def LRUCache.preload {α : Type u} (c : LRUCache α) (now : Nat)
    (entries : List (String × α)) : LRUCache α × Nat :=
  entries.foldl (fun (acc : LRUCache α × Nat) kv =>
    if acc.1.hasKey now kv.1 then acc
    else (acc.1.set now kv.1 kv.2 none, acc.2 + 1)) (c, 0)

/-- `Math.round(x * 100) / 100` (round to two decimal places). -/
def round2 (x : ℚ) : ℚ := (round (x * 100) : ℚ) / 100

structure StatsReport where
  hits : Nat
  misses : Nat
  evictions : Nat
  size : Nat
  hitRate : ℚ
  fillRate : ℚ
  deriving Repr, DecidableEq

/-- `getStats()` (memory estimate and timing average omitted, see above). -/
def LRUCache.getStats {α : Type u} (c : LRUCache α) : StatsReport :=
  { hits := c.stats.hits, misses := c.stats.misses,
    evictions := c.stats.evictions, size := c.stats.size,
    hitRate := round2 c.stats.hitRate,
    fillRate := ((c.stats.size : ℚ) / (c.maxSize : ℚ)) * 100 }

structure ExportItem (α : Type u) where
  key : String
  value : α
  expiry : Nat
  created : Nat
  deriving Repr

/-- `export()`: the still-valid entries. -/
def LRUCache.exportData {α : Type u} (c : LRUCache α) (now : Nat) : List (ExportItem α) :=
  (c.cache.filter (fun p => LRUCache.entryValid now p.2)).map
    (fun p => ⟨p.1, p.2.value, p.2.expiry, p.2.created⟩)

/-- `import(data)`: raw `cache.set`/`accessOrder.set` for every not-yet-expired
item — note the absence of any capacity check or eviction. -/
def LRUCache.importData {α : Type u} (c : LRUCache α) (now : Nat)
    (data : List (ExportItem α)) : LRUCache α × Nat :=
  let step := fun (acc : LRUCache α × Nat) (item : ExportItem α) =>
    if now < item.expiry then
      ({ acc.1 with
          cache := jmSet acc.1.cache item.key ⟨item.value, item.expiry, item.created, now⟩,
          accessOrder := jmSet acc.1.accessOrder item.key now }, acc.2 + 1)
    else acc
  let r := data.foldl step (c, 0)
  ({ r.1 with stats := { r.1.stats with size := r.1.cache.length } }, r.2)

/-- `optimize(targetFillRate)`: delete keys in oldest-access order until the
size reaches `floor(maxSize * targetFillRate)`. -/
def LRUCache.optimize {α : Type u} (c : LRUCache α) (targetFillRate : ℚ) : LRUCache α × Nat :=
  let targetSize := (Int.toNat ⌊(c.maxSize : ℚ) * targetFillRate⌋)
  if c.cache.length ≤ targetSize then (c, 0)
  else
    let sorted := c.accessOrder.mergeSort (fun a b => a.2 ≤ b.2)
    let toRemove := c.cache.length - targetSize
    let victims := (sorted.take toRemove).map (·.1)
    (victims.foldl (fun acc k => (acc.del k).2) c, victims.length)

/-! ## MultiLevelCache  (backend/enhanced-cache.js) -/

structure MultiLevelCache (α : Type u) where
  definitionCache : LRUCache α
  analysisCache : LRUCache α
  imageCache : LRUCache α
  frequentWordsCache : LRUCache α
  deriving Repr

/-- `new MultiLevelCache()` with the four fixed tiers. -/
def MultiLevelCache.init {α : Type u} : MultiLevelCache α :=
  { definitionCache := LRUCache.init 1000 3600000,
    analysisCache := LRUCache.init 500 1800000,
    imageCache := LRUCache.init 100 7200000,
    frequentWordsCache := LRUCache.init 2000 86400000 }

/-- `getCache(type)`: the switch of the source, with the `default` arm
routing every unknown tag to the definition cache. -/
def MultiLevelCache.getCache {α : Type u} (m : MultiLevelCache α) (type : String) :
    LRUCache α :=
  if type = "definition" then m.definitionCache
  else if type = "analysis" then m.analysisCache
  else if type = "image" then m.imageCache
  else if type = "frequent" then m.frequentWordsCache
  else m.definitionCache

/-- Write-back companion of `getCache`: in JS the tier is mutated through the
reference `getCache` returns; in the pure model the updated tier is stored
back through the same routing. -/
def MultiLevelCache.putCache {α : Type u} (m : MultiLevelCache α) (type : String)
    (c : LRUCache α) : MultiLevelCache α :=
  if type = "definition" then { m with definitionCache := c }
  else if type = "analysis" then { m with analysisCache := c }
  else if type = "image" then { m with imageCache := c }
  else if type = "frequent" then { m with frequentWordsCache := c }
  else { m with definitionCache := c }

/-- `MultiLevelCache.get(key, type)`. -/
def MultiLevelCache.mget {α : Type u} (m : MultiLevelCache α) (now : Nat)
    (key : String) (type : String) : Option α × MultiLevelCache α :=
  let r := (m.getCache type).get now key
  (r.1, m.putCache type r.2)

/-- `MultiLevelCache.set(key, value, type, customTTL)`. -/
def MultiLevelCache.mset {α : Type u} (m : MultiLevelCache α) (now : Nat)
    (key : String) (value : α) (type : String) (customTTL : Option Nat) :
    MultiLevelCache α :=
  m.putCache type (((m.getCache type)).set now key value customTTL)

/-! ## Circuit breaker  (backend/request-optimizer.js)

`executeWithCircuitBreaker` is `async`; its only interaction with the guarded
operation is `await operation()`, whose outcome we pass in as an
`Except Unit ρ` (`.error` = the operation threw/timed out).  A supplied
fallback is modelled by the value it returns.  The model also reports
whether the guarded operation was attempted at all. -/

inductive BState where
  | CLOSED
  | OPEN
  | HALF_OPEN
  deriving Repr, DecidableEq

structure BreakerConfig where
  failureThreshold : Nat
  resetTimeout : Nat
  deriving Repr, DecidableEq

structure Breaker where
  state : BState
  failures : Nat
  lastFailureTime : Option Nat
  nextAttempt : Option Nat
  config : BreakerConfig
  deriving Repr, DecidableEq

/-- `createCircuitBreaker(serviceName, options)`. -/
def createCircuitBreaker (cfg : BreakerConfig) : Breaker :=
  { state := .CLOSED, failures := 0, lastFailureTime := none,
    nextAttempt := none, config := cfg }

inductive CBErr where
  | unavailable
  | opFailed
  deriving Repr, DecidableEq

structure CBResult (ρ : Type u) where
  breaker : Breaker
  result : Except CBErr ρ
  attempted : Bool

/-- JS reads `now < breaker.nextAttempt`; `null` coerces to `0`. -/
def nextAttemptNum (b : Breaker) : Nat := b.nextAttempt.getD 0

/-- The `try { await operation() } catch` part of `executeWithCircuitBreaker`. -/
def cbAttempt {ρ : Type u} (b : Breaker) (now : Nat) (op : Except Unit ρ)
    (fallback : Option ρ) : CBResult ρ :=
  match op with
  | .ok r =>
    if b.state = .HALF_OPEN then
      ⟨{ b with state := .CLOSED, failures := 0 }, .ok r, true⟩
    else ⟨b, .ok r, true⟩
  | .error _ =>
    let b' := { b with failures := b.failures + 1, lastFailureTime := some now }
    let b'' := if b'.config.failureThreshold ≤ b'.failures
               then { b' with state := .OPEN,
                              nextAttempt := some (now + b'.config.resetTimeout) }
               else b'
    match fallback with
    | some f => ⟨b'', .ok f, true⟩
    | none => ⟨b'', .error .opFailed, true⟩

/-- `executeWithCircuitBreaker(serviceName, operation, fallback)`. -/
def executeWithCircuitBreaker {ρ : Type u} (b : Breaker) (now : Nat)
    (op : Except Unit ρ) (fallback : Option ρ) : CBResult ρ :=
  match b.state with
  | .OPEN =>
    if now < nextAttemptNum b then
      match fallback with
      | some f => ⟨b, .ok f, false⟩
      | none => ⟨b, .error .unavailable, false⟩
    else cbAttempt { b with state := .HALF_OPEN } now op fallback
  | _ => cbAttempt b now op fallback

/-- Fold a sequence of timed call outcomes through the breaker (no fallback),
keeping only the breaker state — used for whole-trace statements. -/
def runBreaker (b : Breaker) (trace : List (Nat × Except Unit Unit)) : Breaker :=
  trace.foldl (fun acc ev => (executeWithCircuitBreaker acc ev.1 ev.2 none).breaker) b

/-- Spec-side notion (from the claim's wording, not from the code): the
longest run of consecutive failures in a call-outcome sequence
(`true` = failure). -/
def specMaxConsecutiveFailures (outcomes : List Bool) : Nat :=
  (outcomes.foldl (fun (p : Nat × Nat) fail =>
    if fail then (p.1 + 1, max p.2 (p.1 + 1)) else (0, p.2)) (0, 0)).2

/-! ## Batch processor  (backend/request-optimizer.js)

Work items are abstracted by `Nat` identifiers.  `setTimeout`'s handle is
modelled by the absolute time at which the pending timer would fire;
`addToBatch` always clears the previous timer, so the stored deadline is
relative to the most recent add.  A flush (`processBatch`) is reported as
the list of items handed to the bulk processor. -/

structure JsBatch where
  items : List Nat
  deadline : Option Nat
  deriving Repr, DecidableEq

structure BatchProcessorState where
  batches : JMap JsBatch
  batchTimeout : Nat
  maxBatchSize : Nat
  deriving Repr

/-- `new BatchProcessor()`: `batchTimeout = 100`, `maxBatchSize = 10`. -/
def BatchProcessorState.init : BatchProcessorState :=
  { batches := [], batchTimeout := 100, maxBatchSize := 10 }

/-- `addToBatch(type, item, processor)` at time `now`.  Returns the updated
state and the flushed item list when the size threshold fires. -/
def addToBatch (s : BatchProcessorState) (type : String) (item : Nat)
    (now : Nat) : BatchProcessorState × Option (List Nat) :=
  let batch := (jmGet s.batches type).getD ⟨[], none⟩
  let items' := batch.items ++ [item]
  -- the source clears any existing timeout before deciding
  if s.maxBatchSize ≤ items'.length then
    ({ s with batches := jmSet s.batches type ⟨[], none⟩ }, some items')
  else
    ({ s with batches := jmSet s.batches type ⟨items', some (now + s.batchTimeout)⟩ }, none)

/-- The `setTimeout` callback: `processBatch(type)` fired by the pending
timer.  A batch with no items is left untouched (the source returns early). -/
def fireBatchTimer (s : BatchProcessorState) (type : String) :
    BatchProcessorState × Option (List Nat) :=
  match jmGet s.batches type with
  | none => (s, none)
  | some b =>
    if b.items.isEmpty then (s, none)
    else ({ s with batches := jmSet s.batches type ⟨[], none⟩ }, some b.items)

/-! ## Request deduplication middleware  (backend/request-optimizer.js)

`createDeduplicationMiddleware` keys requests by
`method:path:criticalParams`.  The first request for a key stores a fresh
unresolved promise in `requestQueue` and calls `next()` (the guarded
operation executes and that caller is answered through its own response).
A request that finds its key in the queue only subscribes to the stored
promise and is answered when — and only when — that promise settles.  The
middleware stores `resolve`/`reject` on the request object for a route
handler to call; **no route handler anywhere in the repository ever calls
`req.resolve` or `req.reject`** (the only occurrence of `resolve` on a
request is its definition inside the middleware), so the model has no
transition that settles a stored promise.  `res.end` is patched to delete
the queue entry when the executing request's response finishes; it does not
settle the promise either. -/

structure DedupEntry where
  promiseId : Nat
  timestamp : Nat
  deriving Repr, DecidableEq

structure DedupState where
  requestQueue : JMap DedupEntry
  nextPromiseId : Nat
  executions : Nat
  subscriptions : List Nat
  settledPromises : List Nat
  deriving Repr, DecidableEq

def DedupState.init : DedupState :=
  { requestQueue := [], nextPromiseId := 0, executions := 0,
    subscriptions := [], settledPromises := [] }

/-- A request with deduplication key `key` arrives at time `now`. -/
def dedupRequest (s : DedupState) (key : String) (now : Nat) : DedupState :=
  match jmGet s.requestQueue key with
  | some e => { s with subscriptions := s.subscriptions ++ [e.promiseId] }
  | none =>
    { s with requestQueue := jmSet s.requestQueue key ⟨s.nextPromiseId, now⟩,
             nextPromiseId := s.nextPromiseId + 1,
             executions := s.executions + 1 }

/-- The patched `res.end` of the executing request fires: the queue entry is
deleted; the stored promise is *not* settled. -/
def dedupResponseEnd (s : DedupState) (key : String) : DedupState :=
  { s with requestQueue := jmDel s.requestQueue key }

/-- Number of coalesced callers that ever receive an outcome: subscribers
whose promise settled. -/
def dedupServedSubscribers (s : DedupState) : Nat :=
  (s.subscriptions.filter (fun p => s.settledPromises.contains p)).length

/-! ## Variant generation  (backend/enhanced_server.js)

### wanakana script conversion

The script checks/conversions come from the external `wanakana` npm package
(a dependency, not part of this repository).  They are modelled from that
library's documented behaviour: a string is hiragana (katakana) when it is
non-empty and every character lies in the hiragana (katakana) block, the
prolonged-sound mark `ー` counting as either; conversion shifts each kana
code point by `0x60` between the two blocks. -/

def wkIsCharHiragana (c : Char) : Bool :=
  c.val = 0x30FC || (0x3041 ≤ c.val && c.val ≤ 0x3096)

def wkIsCharKatakana (c : Char) : Bool :=
  0x30A1 ≤ c.val && c.val ≤ 0x30FC

def wkIsHiragana (w : String) : Bool :=
  !(sIsEmpty w) && sAllChars w wkIsCharHiragana

def wkIsKatakana (w : String) : Bool :=
  !(sIsEmpty w) && sAllChars w wkIsCharKatakana

def wkToKatakana (w : String) : String :=
  sCharMap (fun c =>
    if 0x3041 ≤ c.val && c.val ≤ 0x3096 then Char.ofNat (c.toNat + 0x60) else c) w

def wkToHiragana (w : String) : String :=
  sCharMap (fun c =>
    if 0x30A1 ≤ c.val && c.val ≤ 0x30F6 then Char.ofNat (c.toNat - 0x60) else c) w

/-- `comprehensiveVariantMappings` (the literal table of the source). -/
def comprehensiveVariantMappings : JMap (List String) := [
  ("なんて", ["なんて", "何て", "なん", "て"]),
  ("なんで", ["なんで", "何で", "なん", "で"]),
  ("なんか", ["なんか", "何か", "なん", "か"]),
  ("なんだか", ["なんだか", "何だか", "なん", "だか"]),
  ("なんと", ["なんと", "何と", "なん", "と"]),
  ("なんの", ["なんの", "何の", "なん", "の"]),
  ("どんな", ["どんな", "どの様な", "どん", "な"]),
  ("そんな", ["そんな", "その様な", "そん", "な"]),
  ("こんな", ["こんな", "この様な", "こん", "な"]),
  ("あんな", ["あんな", "あの様な", "あん", "な"]),
  ("いろんな", ["いろんな", "色んな", "色々な", "いろ", "んな"]),
  ("やっぱり", ["やっぱり", "やはり", "やっぱ", "り"]),
  ("ちょっと", ["ちょっと", "一寸", "ちょっ", "と"]),
  ("ずっと", ["ずっと", "ずー", "っと"]),
  ("きっと", ["きっと", "屹度", "きー", "っと"]),
  ("もっと", ["もっと", "もー", "っと"]),
  ("たくさん", ["沢山", "たくさん", "たく", "さん"]),
  ("いっぱい", ["一杯", "いっぱい", "いっ", "ぱい"]),
  ("すこし", ["少し", "すこし", "すこ", "し"]),
  ("かなり", ["可成り", "かなり", "かな", "り"]),
  ("取り除く", ["取り除く", "取り除いて", "取り除い", "て", "取り除か", "取り除け"]),
  ("取り除いて", ["取り除いて", "取り除く", "取り除い", "て"]),
  ("やる", ["やる", "遣る", "やっ", "やら", "やり", "やれ"]),
  ("する", ["する", "為る", "し", "さ", "せ", "すれ"]),
  ("いる", ["いる", "居る", "い", "いれ", "いら"]),
  ("ある", ["ある", "有る", "在る", "あっ", "あら", "あり", "あれ"]),
  ("くる", ["来る", "くる", "き", "こ", "くれ"]),
  ("いく", ["行く", "いく", "いっ", "いか", "いけ"]),
  ("きれい", ["綺麗", "きれい", "奇麗", "きれ"]),
  ("すごい", ["凄い", "すごい", "すご", "すげー"]),
  ("下品", ["下品", "げひん"]),
  ("装備", ["装備", "そうび"]),
  ("も", ["も"]),
  ("すぐ", ["すぐ", "直ぐ"]),
  ("リンク", ["リンク", "link"]),
  ("縦書き", ["縦書き", "たてがき"]),
  ("前提", ["前提", "ぜんてい"]),
  ("横書き", ["横書き", "よこがき"]),
  ("不能", ["不能", "ふのう"]),
  ("書体", ["書体", "しょたい"]),
  ("存在", ["存在", "そんざい"]),
  ("漢字", ["漢字", "かんじ"]),
  ("仮名", ["仮名", "かな"]),
  ("筆順", ["筆順", "ひつじゅん"]),
  ("表記", ["表記", "ひょうき"]),
  ("行う", ["行う", "おこなう", "行っ", "行い", "行え"]),
  ("行って", ["行って", "おこなって", "行う"]),
  ("行っていた", ["行っていた", "おこなっていた", "行う"]),
  ("倣い", ["倣い", "ならい", "倣う"]),
  ("進めて", ["進めて", "すすめて", "進める"]),
  ("として", ["として", "と", "して"]),
  ("おり", ["おり", "居り", "居る"])]

/-- One base entry's contribution to `reverseVariantMappings`: for every
variant `v`, the stored set gains all the variants and the base form. -/
def addReverseFor (m : JMap (List String)) (base : String)
    (variants : List String) : JMap (List String) :=
  variants.foldl (fun acc v =>
    let cur := (jmGet acc v).getD []
    jmSet acc v (jsSetAdd (jsSetAddAll cur variants) base)) m

/-- `reverseVariantMappings` (built from the table at module load; the JS
`Set`s are kept as deduplicated insertion-ordered lists, which is what the
final sets-to-arrays conversion produces). -/
def reverseVariantMappings : JMap (List String) :=
  comprehensiveVariantMappings.foldl (fun m p => addReverseFor m p.1 p.2) []

/-- Greedy match of `/^(.+り)(.+)$/`: group 1 is the longest prefix ending
in `り` that still leaves a non-empty remainder. -/
def riSplit (word : String) : Option (String × String) :=
  let cs := word.toList
  let n := cs.length
  let idxs := (List.range n).filter
    (fun i => decide (1 ≤ i ∧ i + 1 < n ∧ cs.getD i ' ' = 'り'))
  match idxs.getLast? with
  | none => none
  | some i => some (String.mk (cs.take (i + 1)), String.mk (cs.drop (i + 1)))

/-- Match of `/^(.+)suf$/` for a literal suffix `suf` (used with `して`,
`いて`, `って`): group 1 is the word without the suffix, defined only when
at least one character precedes it. -/
def sufSplit (word : String) (suf : String) : Option String :=
  if sEndsWith word suf ∧ sLength suf + 1 ≤ sLength word
  then some (sDropRight word (sLength suf)) else none

/-- The `compoundPatterns.forEach` additions, in source order
(`り`-split contributes both groups; the three suffix patterns have no
second capture group). -/
def compoundCandidates (word : String) : List String :=
  (match riSplit word with
   | some (a, b) => [a, b]
   | none => [])
  ++ (match sufSplit word "して" with | some a => [a] | none => [])
  ++ (match sufSplit word "いて" with | some a => [a] | none => [])
  ++ (match sufSplit word "って" with | some a => [a] | none => [])

/-- The verb-inflection additions of step 3 (guarded by `word.length > 2`
at the call site), in source order. -/
def inflectionCandidates (word : String) : List String :=
  (if sEndsWith word "て" then
     let stem := sDropRight word 1
     [stem ++ "で", stem]
     ++ (if sEndsWith stem "い" then [sDropRight stem 1 ++ "く"] else [])
     ++ [stem ++ "る", stem ++ "た", stem ++ "ない", stem ++ "ます"]
   else [])
  ++ (if sEndsWith word "で" then
        let stem := sDropRight word 1
        [stem ++ "て", stem]
      else [])
  ++ (if sEndsWith word "た" then
        let stem := sDropRight word 1
        [stem ++ "て", stem ++ "る", stem]
      else [])
  ++ (if sEndsWith word "い" ∧ 2 < sLength word then
        let stem := sDropRight word 1
        [stem ++ "く", stem ++ "かった", stem ++ "くない"]
      else [])
  ++ compoundCandidates word

def particleCombinations : List String :=
  ["も", "は", "が", "を", "に", "で", "と", "から", "まで"]

/-- Step 4: for each particle, strip a trailing occurrence (when something
precedes it) and append the particle. -/
def particleCandidates (word : String) : List String :=
  particleCombinations.flatMap (fun p =>
    (if sEndsWith word p ∧ sLength p < sLength word
     then [sDropRight word (sLength p)] else [])
    ++ [word ++ p])

/-- Every string the source passes to `variants.add`, in execution order.
None of the source's `add` arguments depends on the growing set, so the
whole function is the initial singleton `{word}` followed by these
additions. -/
def variantCandidates (word : String) : List String :=
  ((jmGet comprehensiveVariantMappings word).getD [])
  ++ ((jmGet reverseVariantMappings word).getD [])
  ++ (if wkIsHiragana word then [wkToKatakana word] else [])
  ++ (if wkIsKatakana word then [wkToHiragana word] else [])
  ++ (if 2 < sLength word then inflectionCandidates word else [])
  ++ particleCandidates word
  ++ (if sStartsWith word "なん" then
        let suf := sDrop word 2
        ["何" ++ suf, "なん"] ++ (if sIsEmpty suf then [] else [suf])
      else [])
  ++ (if sEndsWith word "んな" then
        let pre := sDropRight word 2
        [pre ++ "な", pre, "んな"]
      else [])

/-- `generateComprehensiveVariants(word)`: the `Set` built from `word` and
the additions above, returned in insertion order with empty strings
filtered out (`Array.from(variants).filter(v => v.length > 0)`). -/
def generateComprehensiveVariants (word : String) : List String :=
  (jsSetAddAll [word] (variantCandidates word)).filter (fun v => 0 < sLength v)

/-! ## getDefinitionAdvanced  (backend/enhanced_server.js)

The sqlite dictionary store is external data: it is abstracted by a
`DictDB` record giving the outcome of the three query shapes the source
issues (the exact kanji/reading query, the fuzzy `LIKE` query, and the
per-entry sense query of `buildDefinitionFromEntry`).  Definition records
are abstracted to their identifying parts (the senses payload carried along
in the source plays no role in any claim); a cached JS `null` is `none` in
the tier's value type `Option Defn`, so the cache distinguishes
"no entry" from "entry whose stored value is null" exactly as a JS `Map`
does.  Each backing-store query (`queryDb`/`queryDbAll` call) is counted in
the third component of the result. -/

inductive Defn where
  | particle (slug : String) (entryId : String) (originalQuery : String)
  | entry (entryId : Nat) (slug : String) (originalQuery : String) (foundVia : String)
  deriving Repr, DecidableEq

/-- The keys of the `particleDefinitions` literal together with their
`searchInfo.entryId` tags (their sense payloads are abstracted away). -/
def particleDefinitions : JMap String := [
  ("は", "particle_wa"), ("が", "particle_ga"), ("を", "particle_wo"),
  ("に", "particle_ni"), ("で", "particle_de"), ("と", "particle_to"),
  ("も", "particle_mo"), ("から", "particle_kara"), ("まで", "particle_made"),
  ("。", "punct_period"), ("、", "punct_comma"),
  ("？", "punct_question"), ("！", "punct_exclamation")]

structure DictDB where
  exactEntry : String → Option Nat
  fuzzyEntries : String → List (Nat × String)
  entrySlug : Nat → Option String

/-- A backing store with no rows at all. -/
def emptyDB : DictDB :=
  { exactEntry := fun _ => none, fuzzyEntries := fun _ => [], entrySlug := fun _ => none }

abbrev DefnCache := MultiLevelCache (Option Defn)

/-- `buildDefinitionFromEntry(entryId, originalWord, matchedVariant)`:
one sense query; on success the result is cached under both the original
word and (when different) the matched variant. -/
def buildDefinitionFromEntry (db : DictDB) (mlc : DefnCache) (now : Nat)
    (entryId : Nat) (originalWord matchedVariant : String) :
    Option Defn × DefnCache × Nat :=
  match db.entrySlug entryId with
  | none => (none, mlc, 1)
  | some slug =>
    let result := Defn.entry entryId slug originalWord matchedVariant
    let mlc := mlc.mset now originalWord (some result) "definition" none
    let mlc := if matchedVariant ≠ originalWord
               then mlc.mset now matchedVariant (some result) "definition" none
               else mlc
    (some result, mlc, 1)

/-- The exact-tier loop `for (const variant of [word, ...searchVariants.slice(0, 5)])`:
one exact query per candidate; a located entry is materialized with
`buildDefinitionFromEntry` and returned when that yields a definition,
otherwise the loop continues. -/
def exactSearchLoop (db : DictDB) (now : Nat) (word : String) :
    DefnCache → Nat → List String → Option Defn × DefnCache × Nat
  | mlc, q, [] => (none, mlc, q)
  | mlc, q, v :: rest =>
    match db.exactEntry v with
    | some eid =>
      match buildDefinitionFromEntry db mlc now eid word v with
      | (some d, mlc', qb) => (some d, mlc', q + 1 + qb)
      | (none, mlc', qb) => exactSearchLoop db now word mlc' (q + 1 + qb) rest
    | none => exactSearchLoop db now word mlc (q + 1) rest

/-- `getDefinitionAdvanced(word)` at time `now`.  Returns the definition (or
`none`, JS `null`), the updated multi-level cache and the number of
backing-store queries issued by this call.  Note the cache fast path: a hit
whose stored value is `null` fails the `if (cachedResult)` truthiness test
and falls through to the full pipeline. -/
def getDefinitionAdvanced (db : DictDB) (mlc : DefnCache) (word : String)
    (now : Nat) : Option Defn × DefnCache × Nat :=
  let g := mlc.mget now word "definition"
  match g.1 with
  | some (some d) => (some d, g.2, 0)
  | _ =>
    let mlc := g.2
    match jmGet particleDefinitions word with
    | some pid =>
      let d := Defn.particle word pid word
      (some d, mlc.mset now word (some d) "definition" none, 0)
    | none =>
      let searchVariants := generateComprehensiveVariants word
      match exactSearchLoop db now word mlc 0 (word :: searchVariants.take 5) with
      | (some d, mlc, q) => (some d, mlc, q)
      | (none, mlc, q) =>
        match db.fuzzyEntries word with
        | (eid, mv) :: _ =>
          match buildDefinitionFromEntry db mlc now eid word mv with
          | (some d, mlc', qb) => (some d, mlc', q + 1 + qb)
          | (none, mlc', qb) =>
            (none, mlc'.mset now word none "definition" none, q + 1 + qb)
        | [] => (none, mlc.mset now word none "definition" none, q + 1)

/-! ## Operation traces and invariants used by the statements -/

/-- The accounting invariant maintained by `updateHitRate`. -/
def HitRateInv {α : Type u} (c : LRUCache α) : Prop :=
  c.stats.hitRate =
    if c.stats.hits + c.stats.misses = 0 then 0
    else ((c.stats.hits : ℚ) / (((c.stats.hits + c.stats.misses : Nat)) : ℚ)) * 100

/-- A mutating operation of the `EnhancedLRUCache` surface (the list of the
size/correspondence invariant claim, plus `get`, which also mutates state
on hits and on expired entries). -/
inductive MutOp (α : Type u) where
  | getOp (now : Nat) (key : String)
  | setOp (now : Nat) (key : String) (v : α) (ttl : Option Nat)
  | delOp (key : String)
  | clearOp
  | preloadOp (now : Nat) (entries : List (String × α))
  | cleanupOp (now : Nat)
  | optimizeOp (target : ℚ)
  | importOp (now : Nat) (data : List (ExportItem α))

def applyMut {α : Type u} (c : LRUCache α) : MutOp α → LRUCache α
  | .getOp now k => (c.get now k).2
  | .setOp now k v ttl => c.set now k v ttl
  | .delOp k => (c.del k).2
  | .clearOp => c.clearAllEntries
  | .preloadOp now entries => (c.preload now entries).1
  | .cleanupOp now => (c.cleanup now).1
  | .optimizeOp target => (c.optimize target).1
  | .importOp now data => (c.importData now data).1

/-- The keys an operation writes are truthy (non-empty) strings — every real
key of this code base is a word, a request signature or a cache tag. -/
def MutOp.keysOK {α : Type u} : MutOp α → Prop
  | .setOp _ key _ _ => key ≠ ""
  | .preloadOp _ entries => ∀ kv ∈ entries, kv.1 ≠ ""
  | .importOp _ data => ∀ item ∈ data, item.key ≠ ""
  | _ => True

def MutOp.isImport {α : Type u} : MutOp α → Prop
  | .importOp _ _ => True
  | _ => False

/-- Run a whole trace of operations from the `EnhancedLRUCache` surface. -/
def runMutOps {α : Type u} (c : LRUCache α) (ops : List (MutOp α)) : LRUCache α :=
  ops.foldl applyMut c

/-- Number of `get` calls in a trace. -/
def numMutGets {α : Type u} (ops : List (MutOp α)) : Nat :=
  (ops.filter (fun o => match o with | .getOp _ _ => true | _ => false)).length

/-- The `entries`/`accessOrder` correspondence: the two maps hold exactly the
same keys in the same order, without duplicates, and all keys are truthy. -/
def keysAligned {α : Type u} (c : LRUCache α) : Prop :=
  jmKeys c.cache = jmKeys c.accessOrder ∧ (jmKeys c.cache).Nodup ∧
    ∀ k ∈ jmKeys c.cache, k ≠ ""

/-- `size ≤ capacity` (on the actual entry map). -/
def sizeBounded {α : Type u} (c : LRUCache α) : Prop :=
  c.cache.length ≤ c.maxSize

/-! ## Concrete scenario constants referenced by the theorems -/

/-- C6 scenario, steps 1–4: Set("a",1); Set("b",2); Get("a"); Set("c",3)
on a capacity-2, TTL-1000 store at strictly increasing times. -/
def c6AfterSets : LRUCache Nat :=
  (((((LRUCache.init 2 1000).set 0 "a" 1 none).set 1 "b" 2 none).get 2 "a").2).set 3 "c" 3 none

/-- C1 scenario: first lookup of an unknown word against an empty backing
store, starting from a fresh multi-level cache. -/
def c1FirstLookup : Option Defn × DefnCache × Nat :=
  getDefinitionAdvanced emptyDB MultiLevelCache.init "zzz" 0

/-- C1 scenario: the same lookup again, against the cache state the first
lookup produced. -/
def c1SecondLookup : Option Defn × DefnCache × Nat :=
  getDefinitionAdvanced emptyDB c1FirstLookup.2.1 "zzz" 1

/-- C7 scenario: two concurrent requests with the identical deduplication
signature, then the executing request's response finishes. -/
def c7Key : String := "POST:/api/full-analysis:text=x"

def c7Run : DedupState :=
  dedupResponseEnd (dedupRequest (dedupRequest DedupState.init c7Key 0) c7Key 0) c7Key

/-- C5 counterexample run: two items added to the same batch at times 0 and
60 (batch limit 10, idle timeout 100). -/
def c5FirstAdd : BatchProcessorState × Option (List Nat) :=
  addToBatch BatchProcessorState.init "lookup" 1 0

def c5SecondAdd : BatchProcessorState × Option (List Nat) :=
  addToBatch c5FirstAdd.1 "lookup" 2 60

/-- C3 counterexample run: one set then one get (a hit) on a fresh store. -/
def c3Run : LRUCache Nat :=
  (((LRUCache.init 1000 3600000).set 0 "a" 1 none).get 1 "a").2

/-! ## Lemmas about the `Map` model -/

theorem jmGet_cons {α : Type u} (p : String × α) (rest : JMap α) (k : String) :
    jmGet (p :: rest) k = if p.1 == k then some p.2 else jmGet rest k := by
  simp only [jmGet, List.find?]
  by_cases h : (p.1 == k) = true <;> simp [h]

theorem jmHas_cons {α : Type u} (p : String × α) (rest : JMap α) (k : String) :
    jmHas (p :: rest) k = (p.1 == k || jmHas rest k) := by
  simp only [jmHas, jmGet_cons]
  by_cases h : (p.1 == k) = true <;> simp [h]

theorem jmDel_cons {α : Type u} (p : String × α) (rest : JMap α) (k : String) :
    jmDel (p :: rest) k = if p.1 == k then jmDel rest k else p :: jmDel rest k := by
  simp only [jmDel, List.filter]
  by_cases h : (p.1 == k) = true <;> simp [h]

theorem jmHas_iff_mem {α : Type u} (m : JMap α) (k : String) :
    jmHas m k = true ↔ k ∈ jmKeys m := by
  induction m with
  | nil => simp [jmHas, jmGet, jmKeys]
  | cons p rest ih =>
    rw [jmHas_cons, Bool.or_eq_true, beq_iff_eq, ih]
    simp only [jmKeys, List.map_cons, List.mem_cons]
    rw [eq_comm (a := p.1)]

theorem jmHas_false_not_mem {α : Type u} {m : JMap α} {k : String}
    (h : ¬ jmHas m k = true) : k ∉ jmKeys m := fun hm =>
  h ((jmHas_iff_mem m k).mpr hm)

theorem jmKeys_jmSet {α : Type u} (m : JMap α) (k : String) (v : α) :
    jmKeys (jmSet m k v) = if jmHas m k then jmKeys m else jmKeys m ++ [k] := by
  unfold jmSet
  split
  · simp only [jmKeys, List.map_map]
    apply List.map_congr_left
    intro p _
    by_cases h : p.1 = k
    · simp [h]
    · simp [h]
  · simp [jmKeys]

theorem jmSet_length {α : Type u} (m : JMap α) (k : String) (v : α) :
    (jmSet m k v).length = if jmHas m k then m.length else m.length + 1 := by
  unfold jmSet
  split <;> simp

theorem jmKeys_jmDel {α : Type u} (m : JMap α) (k : String) :
    jmKeys (jmDel m k) = (jmKeys m).filter (fun x => !(x == k)) := by
  induction m with
  | nil => rfl
  | cons p rest ih =>
    rw [jmDel_cons]
    by_cases h : (p.1 == k) = true
    · rw [if_pos h]
      simp only [jmKeys, List.map_cons, List.filter, h, Bool.not_true]
      exact ih
    · rw [if_neg h]
      have hb : (p.1 == k) = false := by simpa using h
      simp only [jmKeys, List.map_cons, List.filter, hb, Bool.not_false]
      exact congrArg (List.cons p.1) ih

theorem jmDel_length_le {α : Type u} (m : JMap α) (k : String) :
    (jmDel m k).length ≤ m.length :=
  List.length_filter_le _ _

theorem jmDel_length_of_mem {α : Type u} {m : JMap α} {k : String}
    (hnd : (jmKeys m).Nodup) (hm : k ∈ jmKeys m) :
    (jmDel m k).length + 1 = m.length := by
  induction m with
  | nil => simp [jmKeys] at hm
  | cons p rest ih =>
    simp only [jmKeys, List.map_cons, List.nodup_cons, List.mem_cons] at hnd hm
    rw [jmDel_cons]
    rcases hm with hm | hm
    · have hb : (p.1 == k) = true := by simp [hm]
      have hk : k ∉ jmKeys rest := hm ▸ hnd.1
      have hself : jmDel rest k = rest := by
        unfold jmDel
        apply List.filter_eq_self.mpr
        intro q hq
        have hqk : ¬ q.1 = k := fun hh => hk (hh ▸ List.mem_map_of_mem (·.1) hq)
        simp [hqk]
      simp [hb, hself]
    · have hne : ¬ p.1 = k := fun hh => (hh ▸ hnd.1) hm
      have hb : (p.1 == k) = false := by simp [hne]
      rw [if_neg (by simp [hb]), List.length_cons, List.length_cons]
      have := ih hnd.2 hm
      omega

theorem jmGet_mapSet_self {α : Type u} (m : JMap α) (k : String) (v : α)
    (h : jmHas m k = true) :
    jmGet (m.map (fun p => if p.1 == k then (k, v) else p)) k = some v := by
  induction m with
  | nil => simp [jmHas, jmGet] at h
  | cons p rest ih =>
    rw [jmHas_cons, Bool.or_eq_true] at h
    by_cases hp : (p.1 == k) = true
    · rw [List.map_cons, if_pos hp, jmGet_cons]
      simp
    · rcases h with h | h
      · exact absurd h hp
      · rw [List.map_cons, if_neg hp, jmGet_cons, if_neg hp]
        exact ih h

theorem jmGet_append_self {α : Type u} (m : JMap α) (k : String) (v : α)
    (h : ¬ jmHas m k = true) :
    jmGet (m ++ [(k, v)]) k = some v := by
  induction m with
  | nil => simp [jmGet, List.find?]
  | cons p rest ih =>
    rw [jmHas_cons, Bool.or_eq_true] at h
    push_neg at h
    rw [List.cons_append, jmGet_cons, if_neg h.1]
    exact ih h.2

theorem jmGet_jmSet_self {α : Type u} (m : JMap α) (k : String) (v : α) :
    jmGet (jmSet m k v) k = some v := by
  unfold jmSet
  by_cases h : jmHas m k = true
  · rw [if_pos h]
    exact jmGet_mapSet_self m k v h
  · rw [if_neg h]
    exact jmGet_append_self m k v h

theorem jmGet_mapSet_ne {α : Type u} (m : JMap α) (k k' : String) (v : α)
    (h : k' ≠ k) :
    jmGet (m.map (fun p => if p.1 == k then (k, v) else p)) k' = jmGet m k' := by
  induction m with
  | nil => rfl
  | cons p rest ih =>
    by_cases hp : (p.1 == k) = true
    · have hpk : p.1 = k := beq_iff_eq.mp hp
      have h1 : (k == k') = false := beq_eq_false_iff_ne.mpr (Ne.symm h)
      have h2 : (p.1 == k') = false := by rw [hpk]; exact h1
      rw [List.map_cons, if_pos hp, jmGet_cons, jmGet_cons, h2]
      rw [show ((k, v).1 == k') = false from h1]
      simp only [Bool.false_eq_true, if_false]
      exact ih
    · rw [List.map_cons, if_neg hp, jmGet_cons, jmGet_cons]
      by_cases hq : (p.1 == k') = true
      · rw [if_pos hq, if_pos hq]
      · rw [if_neg hq, if_neg hq]
        exact ih

theorem jmGet_append_ne {α : Type u} (m : JMap α) (k k' : String) (v : α)
    (h : k' ≠ k) :
    jmGet (m ++ [(k, v)]) k' = jmGet m k' := by
  induction m with
  | nil =>
    have h1 : (k == k') = false := beq_eq_false_iff_ne.mpr (Ne.symm h)
    simp [jmGet, List.find?, h1]
  | cons p rest ih =>
    rw [List.cons_append, jmGet_cons, jmGet_cons]
    by_cases hq : (p.1 == k') = true
    · simp [hq]
    · rw [if_neg hq, if_neg hq]
      exact ih

theorem jmGet_jmSet_ne {α : Type u} (m : JMap α) (k k' : String) (v : α)
    (h : k' ≠ k) : jmGet (jmSet m k v) k' = jmGet m k' := by
  unfold jmSet
  split
  · exact jmGet_mapSet_ne m k k' v h
  · exact jmGet_append_ne m k k' v h

theorem findOldest_aux_mem :
    ∀ (ao : JMap Nat) (acc : Option (String × Nat)) (p : String × Nat),
    ao.foldl (fun acc q => match acc with
      | none => some q
      | some r => if q.2 < r.2 then some q else some r) acc = some p →
    acc = some p ∨ p ∈ ao := by
  intro ao
  induction ao with
  | nil => intro acc p h; exact Or.inl h
  | cons q rest ih =>
    intro acc p h
    rw [List.foldl_cons] at h
    rcases acc with _ | r
    · rcases ih (some q) p h with h' | h'
      · exact Or.inr (by simp [Option.some_inj.mp h'])
      · exact Or.inr (List.mem_cons_of_mem _ h')
    · by_cases hq : q.2 < r.2
      · simp only [hq, if_pos] at h
        rcases ih (some q) p h with h' | h'
        · exact Or.inr (by simp [Option.some_inj.mp h'])
        · exact Or.inr (List.mem_cons_of_mem _ h')
      · simp only [hq, if_neg, if_false] at h
        rcases ih (some r) p h with h' | h'
        · exact Or.inl h'
        · exact Or.inr (List.mem_cons_of_mem _ h')

theorem findOldest_aux_isSome :
    ∀ (ao : JMap Nat) (r : String × Nat),
    (ao.foldl (fun acc q => match acc with
      | none => some q
      | some r => if q.2 < r.2 then some q else some r) (some r)).isSome = true := by
  intro ao
  induction ao with
  | nil => intro r; rfl
  | cons q rest ih =>
    intro r
    rw [List.foldl_cons]
    by_cases hq : q.2 < r.2
    · simp only [hq, if_pos]
      exact ih q
    · simp only [hq, if_neg, if_false]
      exact ih r

theorem findOldest_isSome (ao : JMap Nat) (h : ao ≠ []) :
    (findOldest ao).isSome = true := by
  unfold findOldest
  match ao, h with
  | q :: rest, _ =>
    rw [List.foldl_cons]
    exact findOldest_aux_isSome rest q

theorem findOldest_mem (ao : JMap Nat) (p : String × Nat)
    (h : findOldest ao = some p) : p ∈ ao := by
  unfold findOldest at h
  rcases findOldest_aux_mem ao none p h with h' | h'
  · exact absurd h' (by simp)
  · exact h'

/-! ## Claim theorems -/

set_option maxRecDepth 1000000

/-- C6: in a store of capacity 2 with TTL 1000, the sequence
Set("a",1); Set("b",2); Get("a"); Set("c",3) (at strictly increasing times)
evicts "b" — the least recently accessed key — and not "a"; afterwards
Get("b") misses while Get("a") and Get("c") hit with values 1 and 3. -/
theorem lru_scenario_evicts_least_recently_used :
    ((((LRUCache.init 2 1000 : LRUCache Nat).set 0 "a" 1 none).set 1 "b" 2 none).get 2 "a").1
      = some 1 ∧
    jmHas c6AfterSets.cache "b" = false ∧
    jmHas c6AfterSets.cache "a" = true ∧
    (c6AfterSets.get 4 "b").1 = none ∧
    (((c6AfterSets.get 4 "b").2).get 5 "a").1 = some 1 ∧
    ((((c6AfterSets.get 4 "b").2).get 5 "a").2.get 6 "c").1 = some 3 :=
  ⟨rfl, rfl, rfl, rfl, rfl, rfl⟩

/-- C1: looking up a word with no match in any tier twice.  The first lookup
returns `null` after 7 backing-store queries and stores the confirmed-absent
marker (a cache entry whose value is `null`) under the query key — but the
second lookup, because `if (cachedResult)` treats the cached `null` as a
miss, falls through and issues the same 7 backing-store queries again
(its cache tier even records a hit for the marker entry), instead of being
served from the negative cache with no queries as the claim states. -/
theorem unknownWord_secondLookup_requeries :
    c1FirstLookup.1 = none ∧
    (jmGet c1FirstLookup.2.1.definitionCache.cache "zzz").map (fun e => e.value)
      = some none ∧
    c1SecondLookup.1 = none ∧
    c1FirstLookup.2.2 = 7 ∧
    c1SecondLookup.2.2 = 7 ∧
    c1SecondLookup.2.1.definitionCache.stats.hits = 1 :=
  ⟨rfl, rfl, rfl, rfl, rfl, rfl⟩

/-- C7: two concurrent requests with the identical deduplication signature.
Exactly one execution of the underlying operation occurs (that half of the
claim holds), but the coalesced caller subscribes to a promise that no code
path ever settles — no route handler calls `req.resolve`/`req.reject` — so
it never receives the execution's outcome; even after the executing
request's response ends (which only deletes the queue entry), the set of
settled promises is empty and the number of served subscribers is 0. -/
theorem dedup_single_execution_but_coalesced_caller_starves :
    c7Run.executions = 1 ∧
    c7Run.subscriptions.length = 1 ∧
    c7Run.settledPromises = [] ∧
    dedupServedSubscribers c7Run = 0 :=
  ⟨rfl, rfl, rfl, rfl⟩

/-- C2 counterexample: with `failureThreshold = 2`, the call sequence
fail, success, fail leaves the breaker `OPEN`, although the longest run of
consecutive failures is 1 < 2 — an intervening success does **not** reset
the failure count (`failures` is only reset by a successful `HALF_OPEN`
probe), so the claim as stated is false. -/
theorem breaker_opens_on_cumulative_failures :
    (runBreaker (createCircuitBreaker ⟨2, 30000⟩)
      [(0, Except.error ()), (1, Except.ok ()), (2, Except.error ())]).state
      = BState.OPEN ∧
    specMaxConsecutiveFailures [true, false, true] = 1 ∧
    ¬ (2 ≤ specMaxConsecutiveFailures [true, false, true]) :=
  ⟨rfl, rfl, by decide⟩

/-- C2 (amended): transitions of `executeWithCircuitBreaker` from a CLOSED or
OPEN breaker: a success in `CLOSED` leaves the breaker unchanged (the
failure counter is *not* reset); a failure in `CLOSED` increments the
cumulative counter and opens the breaker with
`nextAttempt = now + resetTimeout` exactly when the counter reaches
`failureThreshold`; the first call at or after `nextAttempt` is attempted
(the `HALF_OPEN` probe), its success yields `CLOSED` with the counter reset
to 0, and its failure yields `OPEN` again with
`nextAttempt = now + resetTimeout`. -/
theorem circuit_breaker_transition_behaviour {ρ : Type u} (b : Breaker)
    (now t : Nat) (r : ρ) :
    (b.state = .CLOSED →
       (executeWithCircuitBreaker b now (Except.ok r) none).breaker = b) ∧
    (b.state = .CLOSED → b.failures + 1 < b.config.failureThreshold →
       (executeWithCircuitBreaker b now (Except.error ()) (none : Option ρ)).breaker
         = { b with failures := b.failures + 1, lastFailureTime := some now }) ∧
    (b.state = .CLOSED → b.config.failureThreshold ≤ b.failures + 1 →
       (executeWithCircuitBreaker b now (Except.error ()) (none : Option ρ)).breaker
         = { b with failures := b.failures + 1, lastFailureTime := some now,
                    state := .OPEN,
                    nextAttempt := some (now + b.config.resetTimeout) }) ∧
    (b.state = .OPEN → b.nextAttempt = some t → t ≤ now →
       ((executeWithCircuitBreaker b now (Except.ok r) none).attempted = true ∧
        (executeWithCircuitBreaker b now (Except.ok r) none).breaker
          = { b with state := .CLOSED, failures := 0 }) ∧
       (b.config.failureThreshold ≤ b.failures →
        (executeWithCircuitBreaker b now (Except.error ()) (none : Option ρ)).attempted
          = true ∧
        (executeWithCircuitBreaker b now (Except.error ()) (none : Option ρ)).breaker
          = { b with state := .OPEN, failures := b.failures + 1,
                     lastFailureTime := some now,
                     nextAttempt := some (now + b.config.resetTimeout) })) := by
  rcases b with ⟨st, fl, lf, na, cfg⟩
  refine ⟨?_, ?_, ?_, ?_⟩
  · intro hs
    subst hs
    unfold executeWithCircuitBreaker cbAttempt
    simp
  · intro hs hlt
    subst hs
    replace hlt : fl + 1 < cfg.failureThreshold := hlt
    simp only [executeWithCircuitBreaker, cbAttempt]
    rw [if_neg (not_le.mpr hlt)]
  · intro hs hge
    subst hs
    replace hge : cfg.failureThreshold ≤ fl + 1 := hge
    simp only [executeWithCircuitBreaker, cbAttempt]
    rw [if_pos hge]
  · intro hs hn hle
    subst hs
    subst hn
    simp only [executeWithCircuitBreaker, cbAttempt, nextAttemptNum, Option.getD_some,
      if_neg (not_lt.mpr hle)]
    refine ⟨⟨by simp, by simp⟩, ?_⟩
    intro hth
    replace hth : cfg.failureThreshold ≤ fl := hth
    simp only [if_pos (le_trans hth (Nat.le_succ fl))]
    exact ⟨by simp, by simp⟩

/-- Witness for C2 (amended): a concrete breaker with threshold 2 that is one
failure away from opening, and a concrete OPEN breaker probed after its
`nextAttempt` time. -/
theorem circuit_breaker_transition_behaviour_witness :
    (executeWithCircuitBreaker ⟨BState.CLOSED, 1, none, none, ⟨2, 100⟩⟩ 5
        (Except.ok (0 : Nat)) none).breaker
      = ⟨BState.CLOSED, 1, none, none, ⟨2, 100⟩⟩ ∧
    (executeWithCircuitBreaker ⟨BState.CLOSED, 1, none, none, ⟨2, 100⟩⟩ 5
        (Except.error ()) (none : Option Nat)).breaker
      = ⟨BState.OPEN, 2, some 5, some 105, ⟨2, 100⟩⟩ ∧
    (executeWithCircuitBreaker ⟨BState.OPEN, 2, some 5, some 105, ⟨2, 100⟩⟩ 200
        (Except.ok (0 : Nat)) none).attempted = true ∧
    (executeWithCircuitBreaker ⟨BState.OPEN, 2, some 5, some 105, ⟨2, 100⟩⟩ 200
        (Except.ok (0 : Nat)) none).breaker
      = ⟨BState.CLOSED, 0, some 5, some 105, ⟨2, 100⟩⟩ ∧
    (executeWithCircuitBreaker ⟨BState.OPEN, 2, some 5, some 105, ⟨2, 100⟩⟩ 200
        (Except.error ()) (none : Option Nat)).breaker
      = ⟨BState.OPEN, 3, some 200, some 300, ⟨2, 100⟩⟩ := by
  have h1 := circuit_breaker_transition_behaviour (ρ := Nat)
    ⟨BState.CLOSED, 1, none, none, ⟨2, 100⟩⟩ 5 0 0
  have h2 := circuit_breaker_transition_behaviour (ρ := Nat)
    ⟨BState.OPEN, 2, some 5, some 105, ⟨2, 100⟩⟩ 200 105 0
  have h2' := h2.2.2.2 rfl rfl (by decide)
  exact ⟨h1.1 rfl, h1.2.2.1 rfl (by decide), h2'.1.1, h2'.1.2,
    (h2'.2 (by decide)).2⟩

/-- C8: every call made while the breaker is `OPEN` with the current time
strictly before `nextAttempt` never attempts the guarded operation, leaves
the breaker untouched, and yields the fallback's value when one is
supplied, otherwise the dependency-unavailable error. -/
theorem open_breaker_never_attempts {ρ : Type u} (b : Breaker) (now t : Nat)
    (op : Except Unit ρ) (fallback : Option ρ)
    (hs : b.state = .OPEN) (hn : b.nextAttempt = some t) (hlt : now < t) :
    (executeWithCircuitBreaker b now op fallback).attempted = false ∧
    (executeWithCircuitBreaker b now op fallback).breaker = b ∧
    (executeWithCircuitBreaker b now op fallback).result =
      (match fallback with
       | some f => Except.ok f
       | none => Except.error CBErr.unavailable) := by
  rcases b with ⟨st, fl, lf, na, cfg⟩
  simp only at hs hn
  subst hs
  subst hn
  unfold executeWithCircuitBreaker nextAttemptNum
  simp only [Option.getD]
  rw [if_pos hlt]
  cases fallback <;> simp

/-- Witness for C8: a concrete OPEN breaker called before `nextAttempt`,
without a fallback. -/
theorem open_breaker_never_attempts_witness :
    (executeWithCircuitBreaker ⟨BState.OPEN, 5, some 0, some 100, ⟨5, 100⟩⟩ 50
        (Except.ok (0 : Nat)) none).attempted = false ∧
    (executeWithCircuitBreaker ⟨BState.OPEN, 5, some 0, some 100, ⟨5, 100⟩⟩ 50
        (Except.ok (0 : Nat)) none).breaker
      = ⟨BState.OPEN, 5, some 0, some 100, ⟨5, 100⟩⟩ ∧
    (executeWithCircuitBreaker ⟨BState.OPEN, 5, some 0, some 100, ⟨5, 100⟩⟩ 50
        (Except.ok (0 : Nat)) none).result = Except.error CBErr.unavailable :=
  open_breaker_never_attempts ⟨BState.OPEN, 5, some 0, some 100, ⟨5, 100⟩⟩ 50 100
    (Except.ok 0) none rfl rfl (by decide)

/-- C10: every data-class tag other than the four known ones routes to the
definition tier: `getCache` returns the definition cache, and both `get`
and `set` behave exactly as with the `definition` tag, sharing its state. -/
theorem unknown_tag_routes_to_definition_cache {α : Type u}
    (m : MultiLevelCache α) (type : String) (now : Nat) (key : String) (v : α)
    (ttl : Option Nat) (h1 : type ≠ "definition") (h2 : type ≠ "analysis")
    (h3 : type ≠ "image") (h4 : type ≠ "frequent") :
    m.getCache type = m.definitionCache ∧
    m.mget now key type = m.mget now key "definition" ∧
    m.mset now key v type ttl = m.mset now key v "definition" ttl := by
  unfold MultiLevelCache.mget MultiLevelCache.mset MultiLevelCache.getCache
    MultiLevelCache.putCache
  simp [h1, h2, h3, h4]

/-- Witness for C10: the tag "ocr" is none of the four known tags. -/
theorem unknown_tag_routes_to_definition_cache_witness :
    (MultiLevelCache.init : MultiLevelCache Nat).getCache "ocr"
      = (MultiLevelCache.init : MultiLevelCache Nat).definitionCache ∧
    (MultiLevelCache.init : MultiLevelCache Nat).mget 0 "k" "ocr"
      = (MultiLevelCache.init : MultiLevelCache Nat).mget 0 "k" "definition" ∧
    (MultiLevelCache.init : MultiLevelCache Nat).mset 0 "k" 1 "ocr" none
      = (MultiLevelCache.init : MultiLevelCache Nat).mset 0 "k" 1 "definition" none :=
  unknown_tag_routes_to_definition_cache MultiLevelCache.init "ocr" 0 "k" 1 none
    (by decide) (by decide) (by decide) (by decide)

/-- C5 counterexample: with the fixed limits (`maxBatchSize = 10`,
`batchTimeout = 100`), adding items to the same batch at times 0 and 60
leaves the pending timer due at 160 = 60 + 100 — the idle timer is measured
from the **most recent** add (each add clears and restarts it), not from
the first item of the batch (which would make it fire at 100), so a batch
receiving items more often than the timeout keeps postponing its flush. -/
theorem batch_timer_measured_from_last_add :
    c5FirstAdd.2 = none ∧
    c5SecondAdd.2 = none ∧
    jmGet c5SecondAdd.1.batches "lookup" = some ⟨[1, 2], some 160⟩ ∧
    (160 : Nat) ≠ 0 + 100 :=
  ⟨rfl, rfl, rfl, by decide⟩

/-- C5 (amended): an add that brings the accumulated count to
`maxBatchSize` flushes immediately — without waiting for the idle
timer — with exactly the accumulated items, resetting the batch; an add
below the threshold does not flush and (re)arms the idle timer to fire
`batchTimeout` after that add; and submitting a single item to an empty
batch followed by the timer firing flushes exactly that one item. -/
theorem batch_flush_conditions (s : BatchProcessorState) (type : String)
    (item : Nat) (now : Nat) :
    (∀ b, jmGet s.batches type = some b → b.items.length + 1 < s.maxBatchSize →
       (addToBatch s type item now).2 = none ∧
       jmGet (addToBatch s type item now).1.batches type
         = some ⟨b.items ++ [item], some (now + s.batchTimeout)⟩) ∧
    (∀ b, jmGet s.batches type = some b → s.maxBatchSize ≤ b.items.length + 1 →
       (addToBatch s type item now).2 = some (b.items ++ [item]) ∧
       jmGet (addToBatch s type item now).1.batches type = some ⟨[], none⟩) ∧
    (jmGet s.batches type = none → 2 ≤ s.maxBatchSize →
       (addToBatch s type item now).2 = none ∧
       (fireBatchTimer (addToBatch s type item now).1 type).2 = some [item] ∧
       jmGet (addToBatch s type item now).1.batches type
         = some ⟨[item], some (now + s.batchTimeout)⟩) := by
  refine ⟨?_, ?_, ?_⟩
  · intro b hb hlt
    unfold addToBatch
    rw [hb]
    simp only [Option.getD_some, List.length_append, List.length_cons, List.length_nil]
    rw [if_neg (by omega)]
    exact ⟨rfl, jmGet_jmSet_self _ _ _⟩
  · intro b hb hge
    unfold addToBatch
    rw [hb]
    simp only [Option.getD_some, List.length_append, List.length_cons, List.length_nil]
    rw [if_pos (by omega)]
    exact ⟨rfl, jmGet_jmSet_self _ _ _⟩
  · intro hb hcap
    unfold addToBatch
    rw [hb]
    simp only [Option.getD_none, List.nil_append, List.length_cons, List.length_nil]
    rw [if_neg (by omega)]
    refine ⟨rfl, ?_, jmGet_jmSet_self _ _ _⟩
    unfold fireBatchTimer
    simp only
    rw [jmGet_jmSet_self]
    simp

/-- Witness for C5 (amended): the three flush behaviours at concrete batch
states (one accumulated item; nine accumulated items reaching the limit of
10 on the next add; the empty state followed by a timer fire). -/
theorem batch_flush_conditions_witness :
    ((addToBatch ⟨[("x", ⟨[1], some 100⟩)], 100, 10⟩ "x" 2 5).2 = none ∧
     jmGet (addToBatch ⟨[("x", ⟨[1], some 100⟩)], 100, 10⟩ "x" 2 5).1.batches "x"
       = some ⟨[1, 2], some 105⟩) ∧
    ((addToBatch ⟨[("x", ⟨[1, 2, 3, 4, 5, 6, 7, 8, 9], some 100⟩)], 100, 10⟩ "x" 10 7).2
       = some [1, 2, 3, 4, 5, 6, 7, 8, 9, 10] ∧
     jmGet (addToBatch ⟨[("x", ⟨[1, 2, 3, 4, 5, 6, 7, 8, 9], some 100⟩)], 100, 10⟩
         "x" 10 7).1.batches "x" = some ⟨[], none⟩) ∧
    ((addToBatch BatchProcessorState.init "x" 1 0).2 = none ∧
     (fireBatchTimer (addToBatch BatchProcessorState.init "x" 1 0).1 "x").2
       = some [1] ∧
     jmGet (addToBatch BatchProcessorState.init "x" 1 0).1.batches "x"
       = some ⟨[1], some 100⟩) := by
  have h1 := (batch_flush_conditions ⟨[("x", ⟨[1], some 100⟩)], 100, 10⟩ "x" 2 5).1
    ⟨[1], some 100⟩ rfl (by decide)
  have h2 := (batch_flush_conditions
    ⟨[("x", ⟨[1, 2, 3, 4, 5, 6, 7, 8, 9], some 100⟩)], 100, 10⟩ "x" 10 7).2.1
    ⟨[1, 2, 3, 4, 5, 6, 7, 8, 9], some 100⟩ rfl (by decide)
  have h3 := (batch_flush_conditions BatchProcessorState.init "x" 1 0).2.2 rfl
    (by decide)
  exact ⟨h1, h2, h3⟩

/-! ### Hit-rate accounting (C3) -/

theorem updateHitRate_spec (s : CacheStats) :
    (updateHitRate s).hits = s.hits ∧ (updateHitRate s).misses = s.misses ∧
    (updateHitRate s).hitRate
      = (if s.hits + s.misses = 0 then 0
         else ((s.hits : ℚ) / ((s.hits + s.misses : Nat) : ℚ)) * 100) := by
  unfold updateHitRate
  refine ⟨rfl, rfl, ?_⟩
  by_cases h : s.hits + s.misses = 0
  · simp [h]
  · have hpos : 0 < s.hits + s.misses := Nat.pos_of_ne_zero h
    simp [h, hpos]

theorem get_stats_cases {α : Type u} (c : LRUCache α) (now : Nat) (k : String) :
    (c.get now k).2.stats = updateHitRate { c.stats with hits := c.stats.hits + 1 } ∨
    (c.get now k).2.stats = updateHitRate { c.stats with misses := c.stats.misses + 1 } := by
  unfold LRUCache.get
  cases hj : jmGet c.cache k with
  | none =>
    simp only [hj]
    right
    trivial
  | some item =>
    simp only [hj]
    by_cases hv : LRUCache.entryValid now item = true
    · simp only [hv, if_true]
      left
      trivial
    · simp only [Bool.not_eq_true] at hv
      simp only [hv, Bool.false_eq_true, if_false]
      right
      trivial

theorem evictLRU_stats_frozen {α : Type u} (c : LRUCache α) :
    c.evictLRU.stats.hits = c.stats.hits ∧
    c.evictLRU.stats.misses = c.stats.misses ∧
    c.evictLRU.stats.hitRate = c.stats.hitRate := by
  unfold LRUCache.evictLRU
  split
  · exact ⟨rfl, rfl, rfl⟩
  · split
    · exact ⟨rfl, rfl, rfl⟩
    · split
      · exact ⟨rfl, rfl, rfl⟩
      · exact ⟨rfl, rfl, rfl⟩

theorem set_stats_frozen {α : Type u} (c : LRUCache α) (now : Nat) (k : String)
    (v : α) (ttl : Option Nat) :
    (c.set now k v ttl).stats.hits = c.stats.hits ∧
    (c.set now k v ttl).stats.misses = c.stats.misses ∧
    (c.set now k v ttl).stats.hitRate = c.stats.hitRate := by
  unfold LRUCache.set
  split
  · have h := evictLRU_stats_frozen c
    exact ⟨h.1, h.2.1, h.2.2⟩
  · exact ⟨rfl, rfl, rfl⟩

theorem preloadFold_stats_frozen {α : Type u} (now : Nat)
    (entries : List (String × α)) :
    ∀ p : LRUCache α × Nat,
      (entries.foldl (fun acc kv =>
        if acc.1.hasKey now kv.1 then acc
        else (acc.1.set now kv.1 kv.2 none, acc.2 + 1)) p).1.stats.hits
        = p.1.stats.hits ∧
      (entries.foldl (fun acc kv =>
        if acc.1.hasKey now kv.1 then acc
        else (acc.1.set now kv.1 kv.2 none, acc.2 + 1)) p).1.stats.misses
        = p.1.stats.misses ∧
      (entries.foldl (fun acc kv =>
        if acc.1.hasKey now kv.1 then acc
        else (acc.1.set now kv.1 kv.2 none, acc.2 + 1)) p).1.stats.hitRate
        = p.1.stats.hitRate := by
  induction entries with
  | nil =>
    intro p
    exact ⟨rfl, rfl, rfl⟩
  | cons kv rest ih =>
    intro p
    rw [List.foldl_cons]
    by_cases hh : p.1.hasKey now kv.1 = true
    · rw [if_pos hh]
      exact ih p
    · rw [if_neg hh]
      have hs := set_stats_frozen p.1 now kv.1 kv.2 none
      have hr := ih (p.1.set now kv.1 kv.2 none, p.2 + 1)
      exact ⟨hr.1.trans hs.1, hr.2.1.trans hs.2.1, hr.2.2.trans hs.2.2⟩

theorem preload_stats_frozen {α : Type u} (c : LRUCache α) (now : Nat)
    (entries : List (String × α)) :
    (c.preload now entries).1.stats.hits = c.stats.hits ∧
    (c.preload now entries).1.stats.misses = c.stats.misses ∧
    (c.preload now entries).1.stats.hitRate = c.stats.hitRate := by
  unfold LRUCache.preload
  exact preloadFold_stats_frozen now entries (c, 0)

theorem delBothFold_stats_frozen {α : Type u} (ks : List String) :
    ∀ c : LRUCache α,
      (ks.foldl (fun acc k =>
        { acc with cache := jmDel acc.cache k,
                   accessOrder := jmDel acc.accessOrder k }) c).stats = c.stats := by
  induction ks with
  | nil =>
    intro c
    rfl
  | cons k rest ih =>
    intro c
    rw [List.foldl_cons]
    exact ih _

theorem cleanup_stats_frozen {α : Type u} (c : LRUCache α) (now : Nat) :
    (c.cleanup now).1.stats.hits = c.stats.hits ∧
    (c.cleanup now).1.stats.misses = c.stats.misses ∧
    (c.cleanup now).1.stats.hitRate = c.stats.hitRate := by
  unfold LRUCache.cleanup
  have h := delBothFold_stats_frozen
    ((c.cache.filter (fun p => p.2.expiry ≤ now)).map (·.1)) c
  refine ⟨?_, ?_, ?_⟩ <;> simp only [h]

theorem delFold_stats_frozen {α : Type u} (ks : List String) :
    ∀ c : LRUCache α,
      (ks.foldl (fun acc k => (acc.del k).2) c).stats.hits = c.stats.hits ∧
      (ks.foldl (fun acc k => (acc.del k).2) c).stats.misses = c.stats.misses ∧
      (ks.foldl (fun acc k => (acc.del k).2) c).stats.hitRate = c.stats.hitRate := by
  induction ks with
  | nil =>
    intro c
    exact ⟨rfl, rfl, rfl⟩
  | cons k rest ih =>
    intro c
    rw [List.foldl_cons]
    exact ih (c.del k).2

theorem optimize_stats_frozen {α : Type u} (c : LRUCache α) (target : ℚ) :
    (c.optimize target).1.stats.hits = c.stats.hits ∧
    (c.optimize target).1.stats.misses = c.stats.misses ∧
    (c.optimize target).1.stats.hitRate = c.stats.hitRate := by
  unfold LRUCache.optimize
  by_cases h : c.cache.length ≤ (Int.toNat ⌊(c.maxSize : ℚ) * target⌋)
  · simp only [h, if_true]
    exact ⟨trivial, trivial, trivial⟩
  · simp only [h, if_false]
    exact delFold_stats_frozen _ c

theorem importFold_stats_frozen {α : Type u} (now : Nat)
    (data : List (ExportItem α)) :
    ∀ p : LRUCache α × Nat,
      (data.foldl (fun acc item =>
        if now < item.expiry then
          ({ acc.1 with
              cache := jmSet acc.1.cache item.key
                ⟨item.value, item.expiry, item.created, now⟩,
              accessOrder := jmSet acc.1.accessOrder item.key now }, acc.2 + 1)
        else acc) p).1.stats = p.1.stats := by
  induction data with
  | nil =>
    intro p
    rfl
  | cons item rest ih =>
    intro p
    rw [List.foldl_cons]
    by_cases he : now < item.expiry
    · rw [if_pos he]
      exact ih _
    · rw [if_neg he]
      exact ih p

theorem import_stats_frozen {α : Type u} (c : LRUCache α) (now : Nat)
    (data : List (ExportItem α)) :
    (c.importData now data).1.stats.hits = c.stats.hits ∧
    (c.importData now data).1.stats.misses = c.stats.misses ∧
    (c.importData now data).1.stats.hitRate = c.stats.hitRate := by
  unfold LRUCache.importData
  have h := importFold_stats_frozen now data (c, 0)
  refine ⟨?_, ?_, ?_⟩ <;> simp only [h]

theorem applyMut_stats {α : Type u} (c : LRUCache α) (op : MutOp α)
    (h : HitRateInv c) :
    HitRateInv (applyMut c op) ∧
    (applyMut c op).stats.hits + (applyMut c op).stats.misses
      = c.stats.hits + c.stats.misses + numMutGets [op] := by
  cases op with
  | getOp now k =>
    have hng : numMutGets [MutOp.getOp (α := α) now k] = 1 := rfl
    rw [hng]
    rcases get_stats_cases c now k with hs | hs
    · have hu := updateHitRate_spec { c.stats with hits := c.stats.hits + 1 }
      unfold applyMut
      constructor
      · unfold HitRateInv
        rw [hs, hu.1, hu.2.1, hu.2.2]
      · rw [hs, hu.1, hu.2.1]
        show c.stats.hits + 1 + c.stats.misses = c.stats.hits + c.stats.misses + 1
        omega
    · have hu := updateHitRate_spec { c.stats with misses := c.stats.misses + 1 }
      unfold applyMut
      constructor
      · unfold HitRateInv
        rw [hs, hu.1, hu.2.1, hu.2.2]
      · rw [hs, hu.1, hu.2.1]
        show c.stats.hits + (c.stats.misses + 1) = c.stats.hits + c.stats.misses + 1
        omega
  | setOp now k v ttl =>
    have hng : numMutGets [MutOp.setOp (α := α) now k v ttl] = 0 := rfl
    rw [hng]
    have hs := set_stats_frozen c now k v ttl
    unfold applyMut
    constructor
    · unfold HitRateInv at h ⊢
      rw [hs.1, hs.2.1, hs.2.2, h]
    · rw [hs.1, hs.2.1]
      omega
  | delOp k =>
    have hng : numMutGets [MutOp.delOp (α := α) k] = 0 := rfl
    rw [hng]
    unfold applyMut LRUCache.del
    constructor
    · unfold HitRateInv at h ⊢
      exact h
    · show c.stats.hits + c.stats.misses = c.stats.hits + c.stats.misses + 0
      omega
  | clearOp =>
    have hng : numMutGets [MutOp.clearOp (α := α)] = 0 := rfl
    rw [hng]
    unfold applyMut LRUCache.clearAllEntries
    constructor
    · unfold HitRateInv at h ⊢
      exact h
    · show c.stats.hits + c.stats.misses = c.stats.hits + c.stats.misses + 0
      omega
  | preloadOp now entries =>
    have hng : numMutGets [MutOp.preloadOp (α := α) now entries] = 0 := rfl
    rw [hng]
    have hs := preload_stats_frozen c now entries
    unfold applyMut
    constructor
    · unfold HitRateInv at h ⊢
      rw [hs.1, hs.2.1, hs.2.2, h]
    · rw [hs.1, hs.2.1]
      omega
  | cleanupOp now =>
    have hng : numMutGets [MutOp.cleanupOp (α := α) now] = 0 := rfl
    rw [hng]
    have hs := cleanup_stats_frozen c now
    unfold applyMut
    constructor
    · unfold HitRateInv at h ⊢
      rw [hs.1, hs.2.1, hs.2.2, h]
    · rw [hs.1, hs.2.1]
      omega
  | optimizeOp target =>
    have hng : numMutGets [MutOp.optimizeOp (α := α) target] = 0 := rfl
    rw [hng]
    have hs := optimize_stats_frozen c target
    unfold applyMut
    constructor
    · unfold HitRateInv at h ⊢
      rw [hs.1, hs.2.1, hs.2.2, h]
    · rw [hs.1, hs.2.1]
      omega
  | importOp now data =>
    have hng : numMutGets [MutOp.importOp (α := α) now data] = 0 := rfl
    rw [hng]
    have hs := import_stats_frozen c now data
    unfold applyMut
    constructor
    · unfold HitRateInv at h ⊢
      rw [hs.1, hs.2.1, hs.2.2, h]
    · rw [hs.1, hs.2.1]
      omega

theorem runMutOps_inv {α : Type u} (ops : List (MutOp α)) :
    ∀ c : LRUCache α, HitRateInv c →
      HitRateInv (runMutOps c ops) ∧
      (runMutOps c ops).stats.hits + (runMutOps c ops).stats.misses
        = c.stats.hits + c.stats.misses + numMutGets ops := by
  induction ops with
  | nil =>
    intro c h
    exact ⟨h, by simp [runMutOps, numMutGets, List.filter]⟩
  | cons op rest ih =>
    intro c h
    have h1 := applyMut_stats c op h
    have h2 := ih (applyMut c op) h1.1
    have hsplit : numMutGets (op :: rest) = numMutGets [op] + numMutGets rest := by
      cases op <;> (simp [numMutGets, List.filter]; try omega)
    have hrw : runMutOps c (op :: rest) = runMutOps (applyMut c op) rest := rfl
    rw [hrw, hsplit]
    exact ⟨h2.1, by omega⟩

/-- C3 counterexample: on a fresh store, Set("a",1) then Get("a") yields one
hit and no misses, but the `hitRate` statistic (both the raw counter and
the `getStats()` report) is 100 — the value is a *percentage*,
`(hits/(hits+misses)) * 100` — and is therefore not equal to
`hits/(hits+misses) = 1` as the claim demands. -/
theorem hitRate_reported_as_percentage :
    c3Run.stats.hits = 1 ∧ c3Run.stats.misses = 0 ∧
    c3Run.stats.hitRate = 100 ∧
    (LRUCache.getStats c3Run).hitRate = 100 ∧
    c3Run.stats.hitRate
      ≠ (c3Run.stats.hits : ℚ) / ((c3Run.stats.hits : ℚ) + (c3Run.stats.misses : ℚ)) := by
  have h3 : c3Run.stats.hitRate = ((1 : ℚ) / (((1 : Nat) : ℚ))) * 100 := rfl
  have h100 : c3Run.stats.hitRate = 100 := by rw [h3]; norm_num
  refine ⟨rfl, rfl, h100, ?_, ?_⟩
  · show round2 c3Run.stats.hitRate = 100
    rw [h100]
    unfold round2
    norm_num
  · rw [h100, show c3Run.stats.hits = 1 from rfl, show c3Run.stats.misses = 0 from rfl]
    norm_num

/-- C3 (amended): for every sequence of operations of the store surface —
get, set, delete, clear, preload, cleanup, optimize, import — run from a
fresh store, `hits + misses` equals exactly the number of `get` calls
issued (every get increments exactly one of the two counters, and none of
the other operations touches them), and the maintained `hitRate` statistic
equals `(hits/(hits+misses)) * 100` — the percentage form — with 0 when no
gets have occurred; the `getStats()` report returns that value rounded to
two decimal places. -/
theorem hitRate_accounting {α : Type u} (maxCap ttlv : Nat)
    (ops : List (MutOp α)) :
    (runMutOps (LRUCache.init maxCap ttlv) ops).stats.hits
      + (runMutOps (LRUCache.init maxCap ttlv) ops).stats.misses = numMutGets ops ∧
    (runMutOps (LRUCache.init maxCap ttlv) ops).stats.hitRate
      = (if numMutGets ops = 0 then 0
         else (((runMutOps (LRUCache.init maxCap ttlv) ops).stats.hits : ℚ)
             / ((numMutGets ops : Nat) : ℚ)) * 100) ∧
    ((runMutOps (LRUCache.init maxCap ttlv) ops).getStats).hitRate
      = round2 (runMutOps (LRUCache.init maxCap ttlv) ops).stats.hitRate := by
  have h0 : HitRateInv (LRUCache.init (α := α) maxCap ttlv) := by
    unfold HitRateInv LRUCache.init
    simp
  have h := runMutOps_inv ops _ h0
  have hsum : (runMutOps (LRUCache.init maxCap ttlv) ops).stats.hits
      + (runMutOps (LRUCache.init maxCap ttlv) ops).stats.misses = numMutGets ops := by
    have := h.2
    simpa [LRUCache.init] using this
  refine ⟨hsum, ?_, rfl⟩
  have hinv := h.1
  unfold HitRateInv at hinv
  rw [hinv, hsum]

universe w

theorem jsSetAdd_nodup (s : List String) (x : String) (h : s.Nodup) :
    (jsSetAdd s x).Nodup := by
  unfold jsSetAdd
  split
  · exact h
  case isFalse hx =>
    rw [List.nodup_append]
    refine ⟨h, List.nodup_singleton x, ?_⟩
    intro a ha hax
    simp only [List.mem_singleton] at hax
    subst hax
    exact hx ha

theorem jsSetAddAll_nodup (xs s : List String) (h : s.Nodup) :
    (jsSetAddAll s xs).Nodup := by
  induction xs generalizing s with
  | nil => exact h
  | cons x rest ih => exact ih _ (jsSetAdd_nodup s x h)

/-- C9: candidate generation is a pure function of the query string — two
calls with the same input are identical (the function reads only its
argument and the static mapping tables, which are fixed at module load; it
has no access to the backing store or any mutable state, so it issues no
query and mutates nothing) — and its output is duplicate-free (it is the
insertion-ordered content of a JS `Set`) with every element non-empty
(the final `filter(v => v.length > 0)`). -/
theorem variant_generation_pure (w : String) :
    generateComprehensiveVariants w = generateComprehensiveVariants w ∧
    (generateComprehensiveVariants w).Nodup ∧
    (∀ v ∈ generateComprehensiveVariants w, v ≠ "") := by
  refine ⟨rfl, ?_, ?_⟩
  · exact List.Nodup.filter _ (jsSetAddAll_nodup _ _ (List.nodup_singleton w))
  · intro v hv
    have hp := (List.mem_filter.mp hv).2
    intro he
    subst he
    exact absurd (of_decide_eq_true hp) (by decide)

theorem jmHas_eq_of_keys_eq {α : Type u} {β : Type w} {m1 : JMap α}
    {m2 : JMap β} (h : jmKeys m1 = jmKeys m2) (k : String) :
    jmHas m1 k = jmHas m2 k := by
  cases h1 : jmHas m1 k
  · cases h2 : jmHas m2 k
    · rfl
    · exfalso
      have hm := (jmHas_iff_mem m2 k).mp h2
      rw [← h] at hm
      have := (jmHas_iff_mem m1 k).mpr hm
      rw [h1] at this
      exact Bool.false_ne_true this
  · have hm := (jmHas_iff_mem m1 k).mp h1
    rw [h] at hm
    exact ((jmHas_iff_mem m2 k).mpr hm).symm

theorem get_preserves {α : Type u} (c : LRUCache α) (now : Nat) (k : String)
    (ha : keysAligned c) :
    keysAligned (c.get now k).2 ∧
    (c.get now k).2.cache.length ≤ c.cache.length ∧
    (c.get now k).2.maxSize = c.maxSize := by
  obtain ⟨hk, hnd, hne⟩ := ha
  unfold LRUCache.get
  cases hj : jmGet c.cache k with
  | none =>
    simp only [hj]
    exact ⟨⟨hk, hnd, hne⟩, le_refl _, trivial⟩
  | some item =>
    simp only [hj]
    by_cases hv : LRUCache.entryValid now item = true
    · simp only [hv, if_true]
      have hhas : jmHas c.cache k = true := by
        unfold jmHas
        rw [hj]
        rfl
      have hhasao : jmHas c.accessOrder k = true := by
        rw [← jmHas_eq_of_keys_eq hk k]
        exact hhas
      refine ⟨⟨?_, hnd, hne⟩, le_refl _, trivial⟩
      rw [jmKeys_jmSet, if_pos hhasao]
      exact hk
    · simp only [Bool.not_eq_true] at hv
      simp only [hv, Bool.false_eq_true, if_false]
      refine ⟨⟨?_, ?_, ?_⟩, jmDel_length_le _ _, trivial⟩
      · rw [jmKeys_jmDel, jmKeys_jmDel, hk]
      · rw [jmKeys_jmDel]
        exact hnd.filter _
      · intro x hx
        rw [jmKeys_jmDel] at hx
        exact hne x (List.mem_of_mem_filter hx)

theorem evictLRU_spec {α : Type u} (c : LRUCache α) (ha : keysAligned c)
    (hne : c.cache ≠ []) :
    keysAligned c.evictLRU ∧
    c.evictLRU.cache.length + 1 = c.cache.length ∧
    c.evictLRU.maxSize = c.maxSize ∧
    (∀ k, ¬ jmHas c.cache k = true → ¬ jmHas c.evictLRU.cache k = true) := by
  obtain ⟨hk, hnd, hne'⟩ := ha
  have haoNe : c.accessOrder ≠ [] := by
    intro h0
    apply hne
    have hkeys : jmKeys c.cache = [] := by
      rw [hk, h0]
      rfl
    cases hc : c.cache with
    | nil => rfl
    | cons p r =>
      rw [hc] at hkeys
      simp [jmKeys] at hkeys
  have hsome := findOldest_isSome c.accessOrder haoNe
  obtain ⟨⟨k0, t0⟩, hfo⟩ := Option.isSome_iff_exists.mp hsome
  have hmem : (k0, t0) ∈ c.accessOrder := findOldest_mem _ _ hfo
  have hk0mem : k0 ∈ jmKeys c.accessOrder := List.mem_map_of_mem (·.1) hmem
  have hk0memc : k0 ∈ jmKeys c.cache := by rw [hk]; exact hk0mem
  have hk0ne : k0 ≠ "" := hne' k0 hk0memc
  unfold LRUCache.evictLRU
  rw [if_neg (by simpa [List.isEmpty_iff] using haoNe)]
  simp only [hfo]
  rw [if_neg hk0ne]
  refine ⟨⟨?_, ?_, ?_⟩, ?_, rfl, ?_⟩
  · rw [jmKeys_jmDel, jmKeys_jmDel, hk]
  · rw [jmKeys_jmDel]
    exact hnd.filter _
  · intro x hx
    rw [jmKeys_jmDel] at hx
    exact hne' x (List.mem_of_mem_filter hx)
  · exact jmDel_length_of_mem hnd hk0memc
  · intro k hk' habs
    apply hk'
    rw [jmHas_iff_mem] at habs ⊢
    rw [jmKeys_jmDel] at habs
    exact List.mem_of_mem_filter habs

theorem setBoth_aligned {α : Type u} (c : LRUCache α) (ha : keysAligned c)
    (k : String) (hk : k ≠ "") (e : CacheEntry α) (t : Nat) :
    (jmKeys (jmSet c.cache k e) = jmKeys (jmSet c.accessOrder k t) ∧
     (jmKeys (jmSet c.cache k e)).Nodup ∧
     (∀ x ∈ jmKeys (jmSet c.cache k e), x ≠ "")) ∧
    (jmSet c.cache k e).length
      = (if jmHas c.cache k then c.cache.length else c.cache.length + 1) := by
  obtain ⟨hkeys, hnd, hne⟩ := ha
  have hhas := jmHas_eq_of_keys_eq hkeys k
  rw [jmKeys_jmSet, jmKeys_jmSet, jmSet_length, ← hhas]
  by_cases h : jmHas c.cache k = true
  · rw [if_pos h, if_pos h, if_pos h]
    exact ⟨⟨hkeys, hnd, hne⟩, by trivial⟩
  · have hb : jmHas c.cache k = false := by simpa using h
    rw [hb]
    simp only [Bool.false_eq_true, if_false]
    refine ⟨⟨by rw [hkeys], ?_, ?_⟩, by trivial⟩
    · rw [List.nodup_append]
      refine ⟨hnd, List.nodup_singleton k, ?_⟩
      intro a hamem hax
      simp only [List.mem_singleton] at hax
      subst hax
      exact (jmHas_false_not_mem h) hamem
    · intro x hx
      rcases List.mem_append.mp hx with hx | hx
      · exact hne x hx
      · simp only [List.mem_singleton] at hx
        subst hx
        exact hk

theorem set_preserves {α : Type u} (c : LRUCache α) (now : Nat) (k : String)
    (v : α) (ttl : Option Nat) (ha : keysAligned c) (hb : sizeBounded c)
    (hcap : 1 ≤ c.maxSize) (hk : k ≠ "") :
    keysAligned (c.set now k v ttl) ∧ sizeBounded (c.set now k v ttl) ∧
    (c.set now k v ttl).maxSize = c.maxSize := by
  unfold LRUCache.set
  by_cases hcond : (c.maxSize ≤ c.cache.length ∧ ¬ (jmHas c.cache k = true))
  · rw [if_pos hcond]
    have hlen : c.cache.length = c.maxSize := le_antisymm hb hcond.1
    have hcne : c.cache ≠ [] := by
      intro h0
      rw [h0] at hlen
      simp only [List.length_nil] at hlen
      omega
    obtain ⟨ha1, hlen1, hmax1, habs⟩ := evictLRU_spec c ha hcne
    have hnh : ¬ jmHas c.evictLRU.cache k = true := habs k hcond.2
    obtain ⟨hal2, hlen2⟩ := setBoth_aligned c.evictLRU ha1 k hk
      ⟨v, now + jsOrTTL ttl c.ttl, now, now⟩ now
    have hb2 : jmHas c.evictLRU.cache k = false := by simpa using hnh
    rw [hb2] at hlen2
    simp only [Bool.false_eq_true, if_false] at hlen2
    refine ⟨⟨hal2.1, hal2.2.1, hal2.2.2⟩, ?_, hmax1⟩
    show (jmSet c.evictLRU.cache k _).length ≤ c.evictLRU.maxSize
    rw [hlen2, hmax1]
    omega
  · rw [if_neg hcond]
    obtain ⟨hal2, hlen2⟩ := setBoth_aligned c ha k hk
      ⟨v, now + jsOrTTL ttl c.ttl, now, now⟩ now
    refine ⟨⟨hal2.1, hal2.2.1, hal2.2.2⟩, ?_, rfl⟩
    show (jmSet c.cache k _).length ≤ c.maxSize
    rw [hlen2]
    by_cases h : jmHas c.cache k = true
    · rw [if_pos h]
      exact hb
    · have hb' : jmHas c.cache k = false := by simpa using h
      rw [hb']
      simp only [Bool.false_eq_true, if_false]
      have : ¬ c.maxSize ≤ c.cache.length := by
        by_contra hge
        exact hcond ⟨hge, h⟩
      omega

theorem del_preserves {α : Type u} (c : LRUCache α) (k : String)
    (ha : keysAligned c) :
    keysAligned (c.del k).2 ∧ (c.del k).2.cache.length ≤ c.cache.length ∧
    (c.del k).2.maxSize = c.maxSize := by
  obtain ⟨hkeys, hnd, hne⟩ := ha
  unfold LRUCache.del
  refine ⟨⟨?_, ?_, ?_⟩, jmDel_length_le _ _, rfl⟩
  · rw [jmKeys_jmDel, jmKeys_jmDel, hkeys]
  · rw [jmKeys_jmDel]
    exact hnd.filter _
  · intro x hx
    rw [jmKeys_jmDel] at hx
    exact hne x (List.mem_of_mem_filter hx)

theorem clear_preserves {α : Type u} (c : LRUCache α) :
    keysAligned c.clearAllEntries ∧ c.clearAllEntries.cache.length = 0 ∧
    c.clearAllEntries.maxSize = c.maxSize := by
  unfold LRUCache.clearAllEntries
  refine ⟨⟨rfl, List.nodup_nil, ?_⟩, rfl, rfl⟩
  intro x hx
  simp [jmKeys] at hx

theorem delBothFold_preserves {α : Type u} (ks : List String) :
    ∀ c : LRUCache α, keysAligned c →
      keysAligned (ks.foldl (fun acc k =>
        { acc with cache := jmDel acc.cache k,
                   accessOrder := jmDel acc.accessOrder k }) c) ∧
      (ks.foldl (fun acc k =>
        { acc with cache := jmDel acc.cache k,
                   accessOrder := jmDel acc.accessOrder k }) c).cache.length
        ≤ c.cache.length ∧
      (ks.foldl (fun acc k =>
        { acc with cache := jmDel acc.cache k,
                   accessOrder := jmDel acc.accessOrder k }) c).maxSize
        = c.maxSize := by
  induction ks with
  | nil =>
    intro c h
    exact ⟨h, le_refl _, rfl⟩
  | cons k rest ih =>
    intro c h
    obtain ⟨hkeys, hnd, hne⟩ := h
    have hstep : keysAligned
        { c with cache := jmDel c.cache k, accessOrder := jmDel c.accessOrder k } := by
      refine ⟨?_, ?_, ?_⟩
      · show jmKeys (jmDel c.cache k) = jmKeys (jmDel c.accessOrder k)
        rw [jmKeys_jmDel, jmKeys_jmDel, hkeys]
      · show (jmKeys (jmDel c.cache k)).Nodup
        rw [jmKeys_jmDel]
        exact hnd.filter _
      · intro x hx
        replace hx : x ∈ jmKeys (jmDel c.cache k) := hx
        rw [jmKeys_jmDel] at hx
        exact hne x (List.mem_of_mem_filter hx)
    have hrest := ih _ hstep
    refine ⟨hrest.1, ?_, hrest.2.2⟩
    exact le_trans hrest.2.1 (jmDel_length_le _ _)

theorem cleanup_preserves {α : Type u} (c : LRUCache α) (now : Nat)
    (ha : keysAligned c) :
    keysAligned (c.cleanup now).1 ∧
    (c.cleanup now).1.cache.length ≤ c.cache.length ∧
    (c.cleanup now).1.maxSize = c.maxSize := by
  unfold LRUCache.cleanup
  have h := delBothFold_preserves
    ((c.cache.filter (fun p => p.2.expiry ≤ now)).map (·.1)) c ha
  exact ⟨h.1, h.2.1, h.2.2⟩

theorem delFold_preserves {α : Type u} (ks : List String) :
    ∀ c : LRUCache α, keysAligned c →
      keysAligned (ks.foldl (fun acc k => (acc.del k).2) c) ∧
      (ks.foldl (fun acc k => (acc.del k).2) c).cache.length ≤ c.cache.length ∧
      (ks.foldl (fun acc k => (acc.del k).2) c).maxSize = c.maxSize := by
  induction ks with
  | nil =>
    intro c h
    exact ⟨h, le_refl _, rfl⟩
  | cons k rest ih =>
    intro c h
    have hstep := del_preserves c k h
    have hrest := ih _ hstep.1
    rw [List.foldl_cons]
    refine ⟨hrest.1, ?_, ?_⟩
    · exact le_trans hrest.2.1 hstep.2.1
    · rw [hrest.2.2, hstep.2.2]

theorem optimize_preserves {α : Type u} (c : LRUCache α) (target : ℚ)
    (ha : keysAligned c) (hb : sizeBounded c) :
    keysAligned (c.optimize target).1 ∧ sizeBounded (c.optimize target).1 ∧
    (c.optimize target).1.maxSize = c.maxSize := by
  unfold LRUCache.optimize
  by_cases h : c.cache.length ≤ (Int.toNat ⌊(c.maxSize : ℚ) * target⌋)
  · simp only [h, if_true]
    exact ⟨ha, hb, by trivial⟩
  · simp only [h, if_false]
    have h2 := delFold_preserves
      (((c.accessOrder.mergeSort (fun a b => a.2 ≤ b.2)).take
        (c.cache.length - Int.toNat ⌊(c.maxSize : ℚ) * target⌋)).map (·.1)) c ha
    refine ⟨h2.1, ?_, h2.2.2⟩
    show _ ≤ _
    rw [h2.2.2]
    exact le_trans h2.2.1 hb

theorem preloadFold_preserves {α : Type u} (now : Nat)
    (entries : List (String × α)) :
    ∀ p : LRUCache α × Nat, keysAligned p.1 → sizeBounded p.1 →
      1 ≤ p.1.maxSize → (∀ kv ∈ entries, kv.1 ≠ "") →
      keysAligned (entries.foldl (fun acc kv =>
        if acc.1.hasKey now kv.1 then acc
        else (acc.1.set now kv.1 kv.2 none, acc.2 + 1)) p).1 ∧
      sizeBounded (entries.foldl (fun acc kv =>
        if acc.1.hasKey now kv.1 then acc
        else (acc.1.set now kv.1 kv.2 none, acc.2 + 1)) p).1 := by
  induction entries with
  | nil =>
    intro p h1 h2 _ _
    exact ⟨h1, h2⟩
  | cons kv rest ih =>
    intro p h1 h2 hcap hks
    have hkv : kv.1 ≠ "" := hks kv (List.mem_cons_self _ _)
    rw [List.foldl_cons]
    by_cases hh : p.1.hasKey now kv.1 = true
    · rw [if_pos hh]
      exact ih p h1 h2 hcap (fun x hx => hks x (List.mem_cons_of_mem _ hx))
    · rw [if_neg hh]
      have hset := set_preserves p.1 now kv.1 kv.2 none h1 h2 hcap hkv
      refine ih _ hset.1 hset.2.1 ?_ (fun x hx => hks x (List.mem_cons_of_mem _ hx))
      show 1 ≤ (p.1.set now kv.1 kv.2 none).maxSize
      rw [hset.2.2]
      exact hcap

theorem preload_preserves {α : Type u} (c : LRUCache α) (now : Nat)
    (entries : List (String × α)) (ha : keysAligned c) (hb : sizeBounded c)
    (hcap : 1 ≤ c.maxSize) (hks : ∀ kv ∈ entries, kv.1 ≠ "") :
    keysAligned (c.preload now entries).1 ∧ sizeBounded (c.preload now entries).1 := by
  unfold LRUCache.preload
  exact preloadFold_preserves now entries (c, 0) ha hb hcap hks

theorem importFold_preserves {α : Type u} (now : Nat)
    (data : List (ExportItem α)) :
    ∀ p : LRUCache α × Nat, keysAligned p.1 → (∀ item ∈ data, item.key ≠ "") →
      keysAligned (data.foldl (fun acc item =>
        if now < item.expiry then
          ({ acc.1 with
              cache := jmSet acc.1.cache item.key
                ⟨item.value, item.expiry, item.created, now⟩,
              accessOrder := jmSet acc.1.accessOrder item.key now }, acc.2 + 1)
        else acc) p).1 ∧
      (data.foldl (fun acc item =>
        if now < item.expiry then
          ({ acc.1 with
              cache := jmSet acc.1.cache item.key
                ⟨item.value, item.expiry, item.created, now⟩,
              accessOrder := jmSet acc.1.accessOrder item.key now }, acc.2 + 1)
        else acc) p).1.maxSize = p.1.maxSize := by
  induction data with
  | nil =>
    intro p h _
    exact ⟨h, rfl⟩
  | cons item rest ih =>
    intro p h hks
    have hkey : item.key ≠ "" := hks item (List.mem_cons_self _ _)
    rw [List.foldl_cons]
    by_cases he : now < item.expiry
    · rw [if_pos he]
      have hstep := (setBoth_aligned p.1 h item.key hkey
        ⟨item.value, item.expiry, item.created, now⟩ now).1
      exact ih _ ⟨hstep.1, hstep.2.1, hstep.2.2⟩
        (fun x hx => hks x (List.mem_cons_of_mem _ hx))
    · rw [if_neg he]
      exact ih p h (fun x hx => hks x (List.mem_cons_of_mem _ hx))

theorem import_preserves {α : Type u} (c : LRUCache α) (now : Nat)
    (data : List (ExportItem α)) (ha : keysAligned c)
    (hks : ∀ item ∈ data, item.key ≠ "") :
    keysAligned (c.importData now data).1 := by
  unfold LRUCache.importData
  exact (importFold_preserves now data (c, 0) ha hks).1

/-- C4 (amended): every mutating operation of the store — get, set, delete,
clear, preload, cleanup and optimize — preserves both halves of the
invariant, provided the capacity is at least 1 and the keys written are
non-empty strings (an empty-string eviction victim is silently skipped by
the falsy-key guard in `evictLRU`): afterwards the entry map has at most
`maxSize` entries, and the entry map and the access-order map hold exactly
the same keys.  `import` preserves the key correspondence but **not** the
size bound (it writes entries with no capacity check). -/
theorem cache_mutators_preserve_invariant {α : Type u} (c : LRUCache α)
    (op : MutOp α) (ha : keysAligned c) (hb : sizeBounded c)
    (hcap : 1 ≤ c.maxSize) (hk : op.keysOK) :
    keysAligned (applyMut c op) ∧ (¬ op.isImport → sizeBounded (applyMut c op)) := by
  cases op with
  | getOp now k =>
    have h := get_preserves c now k ha
    refine ⟨h.1, fun _ => ?_⟩
    show (c.get now k).2.cache.length ≤ (c.get now k).2.maxSize
    rw [h.2.2]
    exact le_trans h.2.1 hb
  | setOp now k v ttl =>
    have h := set_preserves c now k v ttl ha hb hcap hk
    exact ⟨h.1, fun _ => h.2.1⟩
  | delOp k =>
    have h := del_preserves c k ha
    refine ⟨h.1, fun _ => ?_⟩
    show (c.del k).2.cache.length ≤ (c.del k).2.maxSize
    rw [h.2.2]
    exact le_trans h.2.1 hb
  | clearOp =>
    have h := clear_preserves c
    refine ⟨h.1, fun _ => ?_⟩
    show c.clearAllEntries.cache.length ≤ c.clearAllEntries.maxSize
    rw [h.2.1, h.2.2]
    exact Nat.zero_le _
  | preloadOp now entries =>
    have h := preload_preserves c now entries ha hb hcap hk
    exact ⟨h.1, fun _ => h.2⟩
  | cleanupOp now =>
    have h := cleanup_preserves c now ha
    refine ⟨h.1, fun _ => ?_⟩
    show (c.cleanup now).1.cache.length ≤ (c.cleanup now).1.maxSize
    rw [h.2.2]
    exact le_trans h.2.1 hb
  | optimizeOp target =>
    have h := optimize_preserves c target ha hb
    exact ⟨h.1, fun _ => h.2.1⟩
  | importOp now data =>
    refine ⟨import_preserves c now data ha hk, fun him => (him trivial).elim⟩

/-- Witness for C4 (amended): a concrete set operation on a store of
capacity 2 holding one entry. -/
theorem cache_mutators_preserve_invariant_witness :
    keysAligned (applyMut ((LRUCache.init 2 1000 : LRUCache Nat).set 0 "a" 1 none)
      (MutOp.setOp 1 "b" 2 none)) ∧
    (¬ (MutOp.setOp 1 "b" 2 none : MutOp Nat).isImport →
      sizeBounded (applyMut ((LRUCache.init 2 1000 : LRUCache Nat).set 0 "a" 1 none)
        (MutOp.setOp 1 "b" 2 none))) :=
  cache_mutators_preserve_invariant _ _
    (by refine ⟨rfl, ?_, ?_⟩ <;> decide)
    (by show List.length _ ≤ _; decide)
    (by decide)
    (by show "b" ≠ ""; decide)

/-- Witness for C9: the inflected query 取り除いて generates a
duplicate-free candidate list whose member て is non-empty. -/
theorem variant_generation_pure_witness :
    "て" ≠ "" ∧ (generateComprehensiveVariants "取り除いて").Nodup :=
  ⟨(variant_generation_pure "取り除いて").2.2 "て" (by decide),
   (variant_generation_pure "取り除いて").2.1⟩

/-- C4 counterexample: three concrete violations of the claim as stated.
`import` of two valid items into a capacity-1 store leaves 2 > 1 entries
(no capacity check); with the empty string as a key, a set at capacity
skips the eviction (`if (oldestKey)` is false for "") and also exceeds
capacity; and with capacity 0 a single set already exceeds capacity. -/
theorem cache_capacity_violations :
    ((((LRUCache.init 1 1000 : LRUCache Nat).importData 0
        [⟨"a", 1, 10, 0⟩, ⟨"b", 2, 10, 0⟩]).1.cache.length = 2) ∧
     (LRUCache.init 1 1000 : LRUCache Nat).maxSize = 1) ∧
    ((((LRUCache.init 1 1000 : LRUCache Nat).set 0 "" 1 none).set 1 "x" 2
        none).cache.length = 2) ∧
    ((((LRUCache.init 0 1000 : LRUCache Nat).set 0 "x" 1 none).cache.length = 1) ∧
     (LRUCache.init 0 1000 : LRUCache Nat).maxSize = 0) :=
  ⟨⟨rfl, rfl⟩, rfl, ⟨rfl, rfl⟩⟩
